import Mathlib

/-!
Verification of the jointcal core: a shallow embedding, in Lean 4, of
the FastFinder spatial index (src/FastFinder.cc), the robust fitting
loop of FitterBase (src/FitterBase.cc) and the MatchConditions defaults
(include/lsst/jointcal/ListMatch.h), together with theorems checking
the natural-language specification against the embedded code.

C++ `double` values are modelled as exact rationals (ℚ): every claim
treated here is about branch structure and exact comparisons, not about
rounding. A C++ `double → int` cast is truncation toward zero, embedded
as `ratTrunc` below. The flat pointer array of FastFinder, x-sorted and
then re-sorted by y inside each x-slice, is represented as the list of
its slices; the binary searches, which in the C++ work on global
pointers but never leave the slice passed to them, are embedded on the
slice with the same arithmetic.
-/

/-- A 2-D point: the (x, y) part of a BaseStar. Flux plays no role in any
claim treated here. -/
structure Pt where
  x : ℚ
  y : ℚ
deriving DecidableEq

instance : Inhabited Pt := ⟨⟨0, 0⟩⟩

/-- Point.Dist2: squared Euclidean distance. -/
def Dist2 (p q : Pt) : ℚ :=
  (p.x - q.x) ^ 2 + (p.y - q.y) ^ 2

/-- Comparison used to sort the star array by x (FastFinder constructor). -/
def xle (a b : Pt) : Prop := a.x ≤ b.x

/-- Comparison used to re-sort each slice by y (FastFinder constructor). -/
def yle (a b : Pt) : Prop := a.y ≤ b.y

instance : DecidableRel xle := fun a b => inferInstanceAs (Decidable (a.x ≤ b.x))

instance : DecidableRel yle := fun a b => inferInstanceAs (Decidable (a.y ≤ b.y))

instance : IsTotal Pt xle := ⟨fun a b => le_total a.x b.x⟩

instance : IsTrans Pt xle := ⟨fun _ _ _ h h' => le_trans h h'⟩

instance : IsTotal Pt yle := ⟨fun a b => le_total a.y b.y⟩

instance : IsTrans Pt yle := ⟨fun _ _ _ h h' => le_trans h h'⟩

/-- The C++ cast `int(d)` on a double: truncation toward zero. -/
def ratTrunc (q : ℚ) : ℤ := Int.tdiv q.num q.den

/-- The constructor's scan `while (istar < count && stars[istar]->x < xend) ++istar;`
starting from `istar`. -/
def advanceIndex (xs : List Pt) (xend : ℚ) (istar : ℕ) : ℕ :=
  if h : istar < xs.length ∧ (xs.getD istar default).x < xend then
    advanceIndex xs xend (istar + 1)
  else istar
termination_by xs.length - istar
decreasing_by omega

/-- The constructor's index-filling loop, producing `index[islice]` for
`islice = 1 .. nslice-1` in order, threading `istar` across slices. -/
def buildIndexAux (xs : List Pt) (xmin xstep : ℚ) (nslice islice istar : ℕ) : List ℕ :=
  if islice < nslice then
    advanceIndex xs (xmin + islice * xstep) istar ::
      buildIndexAux xs xmin xstep nslice (islice + 1)
        (advanceIndex xs (xmin + islice * xstep) istar)
  else []
termination_by nslice - islice

/-- The full index array `index[0..nslice]`: 0 first, the loop's values, then
`count` last (FastFinder constructor). -/
def indexList (xs : List Pt) (xmin xstep : ℚ) (nslice : ℕ) : List ℕ :=
  (0 :: buildIndexAux xs xmin xstep nslice 1 0) ++ [xs.length]

/-- The spatial index: slices of the x-sorted star array, each slice re-sorted
by y, together with the scalar fields of the C++ FastFinder. -/
structure FastFinder where
  slices : List (List Pt)
  count : ℕ
  nslice : ℕ
  xmin : ℚ
  xmax : ℚ
  xstep : ℚ

/-- FastFinder constructor: sort by x, pick nslice, slice at
`xmin + islice*xstep`, sort each slice by y. For an empty list the C++
returns before initialising the geometry; the scan then yields nothing
whatever those fields hold, and they are set to 0 here. -/
def mkFastFinder (L : List Pt) (NXslice : ℕ) : FastFinder :=
  if L.length = 0 then
    ⟨List.replicate NXslice [], 0, NXslice, 0, 0, 0⟩
  else
    let xs := L.insertionSort xle
    let xmin := (xs.getD 0 default).x
    let xmax := (xs.getD (xs.length - 1) default).x
    let nslice := if xmin = xmax then 1 else min NXslice L.length
    let xstep := (xmax - xmin) / nslice
    let idx := indexList xs xmin xstep nslice
    ⟨(List.range nslice).map (fun j =>
        ((xs.drop (idx.getD j 0)).take (idx.getD (j + 1) 0 - idx.getD j 0)).insertionSort yle),
      L.length, nslice, xmin, xmax, xstep⟩

/-- locate_y_start's binary-search loop on a y-sorted slice: positions are
offsets into the slice, `b` is Begin, `span` as in the C++. -/
def locateYStartLoop (sl : List Pt) (Y : ℚ) (b span : ℕ) : ℕ :=
  if h : 1 < span then
    let half := span / 2
    if (sl.getD (b + half) default).y < Y then
      locateYStartLoop sl Y (b + half) (span - half)
    else
      locateYStartLoop sl Y b half
  else b
termination_by span
decreasing_by
  · omega
  · omega

/-- locate_y_start on one slice. The C++ returns the null position
(stars.end()) when Begin is the global end or Begin = End; on the slice both
cases are exactly the empty slice. -/
def locateYStartSlice (sl : List Pt) (Y : ℚ) : Option ℕ :=
  if sl.length = 0 then none
  else some (locateYStartLoop sl Y 0 (sl.length - 1))

/-- locate_y_end's binary-search loop: `e` is End as an offset one past the
candidate range, `span` as in the C++. -/
def locateYEndLoop (sl : List Pt) (Y : ℚ) (e span : ℕ) : ℕ :=
  if h : 1 < span then
    let half := span / 2
    if Y < (sl.getD (e - half) default).y then
      locateYEndLoop sl Y (e - half) (span - half)
    else
      locateYEndLoop sl Y e half
  else e
termination_by span
decreasing_by
  · omega
  · omega

/-- locate_y_end on one slice, called by find_range_in_slice with
Begin = Start (offset `b`) and End = the slice end: returns End - 1 of the
loop's End. -/
def locateYEndSlice (sl : List Pt) (b : ℕ) (Y : ℚ) : ℕ :=
  locateYEndLoop sl Y sl.length (sl.length - b - 1) - 1

/-- find_range_in_slice: the inclusive range [Start, End] the iterator walks
in one slice, or none when the slice is empty. -/
def findRangeInSlice (sl : List Pt) (YStart YEnd : ℚ) : Option (ℕ × ℕ) :=
  match locateYStartSlice sl YStart with
  | none => none
  | some s => some (s, locateYEndSlice sl s YEnd)

/-- The stars the iterator yields in one slice: the inclusive sub-range
found by find_range_in_slice. -/
def sliceYield (sl : List Pt) (YStart YEnd : ℚ) : List Pt :=
  match findRangeInSlice sl YStart YEnd with
  | none => []
  | some (s, e') => (sl.drop s).take (e' + 1 - s)

/-- The iterator constructor's slice bounds (startSlice, endSlice), before the
out-of-limits test. -/
def scanBounds (f : FastFinder) (p : Pt) (MaxDist : ℚ) : ℤ × ℤ :=
  if f.xstep ≠ 0 then
    (max 0 (ratTrunc ((p.x - MaxDist - f.xmin) / f.xstep)),
      min (f.nslice : ℤ) (ratTrunc ((p.x + MaxDist - f.xmin) / f.xstep) + 1))
  else (0, 1)

/-- The slices the iterator visits: none when startSlice ≥ nslice or
endSlice < 0, else startSlice, …, endSlice - 1. -/
def visitedSlices (f : FastFinder) (p : Pt) (MaxDist : ℚ) : List ℕ :=
  let b := scanBounds f p MaxDist
  if (f.nslice : ℤ) ≤ b.1 ∨ b.2 < 0 then []
  else List.range' b.1.toNat (b.2.toNat - b.1.toNat)

/-- Every star the scan begun by begin_scan(p, MaxDist) yields, in order. -/
def scanList (f : FastFinder) (p : Pt) (MaxDist : ℚ) : List Pt :=
  (visitedSlices f p MaxDist).flatMap
    (fun j => sliceYield (f.slices.getD j []) (p.y - MaxDist) (p.y + MaxDist))

/-- FastFinder::FindClosest: scan, skip by predicate, keep the strictly
closest star under MaxDist². -/
def FindClosest (f : FastFinder) (p : Pt) (MaxDist : ℚ) (SkipIt : Pt → Bool) : Option Pt :=
  if f.count = 0 then none
  else
    ((scanList f p MaxDist).foldl
      (fun acc s =>
        if SkipIt s then acc
        else if Dist2 p s < acc.2 then (some s, Dist2 p s) else acc)
      ((none : Option Pt), MaxDist * MaxDist)).1

/-! ### Arithmetic of the C++ `int` cast on rationals -/

theorem ratTrunc_eq_floor (q : ℚ) (hq : 0 ≤ q) : ratTrunc q = ⌊q⌋ := by
  unfold ratTrunc
  rw [Rat.floor_def]
  exact Int.tdiv_eq_ediv (Rat.num_nonneg.mpr hq) (by positivity)

theorem ratTrunc_nonpos (q : ℚ) (hq : q ≤ 0) : ratTrunc q ≤ 0 := by
  unfold ratTrunc
  have h1 : q.num ≤ 0 := Rat.num_nonpos.mpr hq
  have h2 : 0 ≤ (-q.num).tdiv (q.den : ℤ) := Int.tdiv_nonneg (by omega) (by positivity)
  rw [Int.neg_tdiv] at h2
  omega

theorem le_ratTrunc (j : ℕ) (q : ℚ) (h : (j : ℚ) ≤ q) : (j : ℤ) ≤ ratTrunc q := by
  have hq : 0 ≤ q := le_trans (by positivity) h
  rw [ratTrunc_eq_floor q hq]
  exact Int.le_floor.mpr (by exact_mod_cast h)

theorem ratTrunc_le (j : ℕ) (q : ℚ) (h : q < (j : ℚ) + 1) : ratTrunc q ≤ (j : ℤ) := by
  rcases le_or_lt 0 q with hq | hq
  · rw [ratTrunc_eq_floor q hq]
    have hf : ⌊q⌋ < (j : ℤ) + 1 := Int.floor_lt.mpr (by push_cast; linarith)
    omega
  · have := ratTrunc_nonpos q hq.le
    omega

/-! ### Sorted lists: monotone access and counting below a threshold -/

theorem sorted_x_mono {xs : List Pt} (hs : List.Sorted xle xs) {i j : ℕ}
    (hij : i ≤ j) (hj : j < xs.length) :
    (xs.getD i default).x ≤ (xs.getD j default).x := by
  rcases eq_or_lt_of_le hij with rfl | hlt
  · exact le_refl _
  · have h := List.Sorted.rel_get_of_lt hs (a := ⟨i, lt_trans hlt hj⟩) (b := ⟨j, hj⟩) hlt
    rw [List.getD_eq_getElem _ _ (lt_trans hlt hj), List.getD_eq_getElem _ _ hj]
    exact h

theorem sorted_y_mono {xs : List Pt} (hs : List.Sorted yle xs) {i j : ℕ}
    (hij : i ≤ j) (hj : j < xs.length) :
    (xs.getD i default).y ≤ (xs.getD j default).y := by
  rcases eq_or_lt_of_le hij with rfl | hlt
  · exact le_refl _
  · have h := List.Sorted.rel_get_of_lt hs (a := ⟨i, lt_trans hlt hj⟩) (b := ⟨j, hj⟩) hlt
    rw [List.getD_eq_getElem _ _ (lt_trans hlt hj), List.getD_eq_getElem _ _ hj]
    exact h

/-- Number of stars with x strictly below a threshold. -/
def xcount (xs : List Pt) (t : ℚ) : ℕ := xs.countP (fun s => decide (s.x < t))

theorem xcount_le_length (xs : List Pt) (t : ℚ) : xcount xs t ≤ xs.length :=
  List.countP_le_length _

theorem xcount_mono {xs : List Pt} {t t' : ℚ} (h : t ≤ t') : xcount xs t ≤ xcount xs t' := by
  refine List.countP_mono_left fun s _ hst => ?_
  simp only [decide_eq_true_eq] at hst ⊢
  exact lt_of_lt_of_le hst h

theorem getD_x_lt_of_lt_xcount {xs : List Pt} {t : ℚ} (hs : List.Sorted xle xs) {k : ℕ}
    (hk : k < xcount xs t) : (xs.getD k default).x < t := by
  induction xs generalizing k with
  | nil => simp [xcount] at hk
  | cons a l ih =>
    by_cases ha : a.x < t
    · cases k with
      | zero => simpa using ha
      | succ k =>
        have hk' : k < xcount l t := by
          have hc : xcount (a :: l) t = xcount l t + 1 := by
            simp [xcount, List.countP_cons, ha]
          omega
        simpa using ih hs.of_cons hk'
    · exfalso
      have hz : xcount (a :: l) t = 0 := by
        refine List.countP_eq_zero.mpr fun b hb => ?_
        simp only [decide_eq_true_eq]
        rcases List.mem_cons.mp hb with rfl | hbl
        · exact ha
        · have := List.rel_of_sorted_cons hs b hbl
          exact fun hbt => ha (lt_of_le_of_lt this hbt)
      omega

theorem le_getD_x_of_xcount_le {xs : List Pt} {t : ℚ} (hs : List.Sorted xle xs) {k : ℕ}
    (hk : xcount xs t ≤ k) (hKlen : k < xs.length) : t ≤ (xs.getD k default).x := by
  induction xs generalizing k with
  | nil => simp at hKlen
  | cons a l ih =>
    by_cases ha : a.x < t
    · have hpos : xcount (a :: l) t = xcount l t + 1 := by
        simp [xcount, List.countP_cons, ha]
      cases k with
      | zero => omega
      | succ k =>
        have : xcount l t ≤ k := by omega
        simpa using ih hs.of_cons this (by simpa using hKlen)
    · push_neg at ha
      cases k with
      | zero => simpa using ha
      | succ k =>
        have hal : xle a (l.getD k default) := by
          have hkl : k < l.length := by simpa using hKlen
          have := List.rel_of_sorted_cons hs (l.getD k default)
            (by rw [List.getD_eq_getElem _ _ hkl]; exact List.getElem_mem hkl)
          exact this
        simpa using le_trans ha hal

/-! ### The index array: closed form of the constructor's slicing loop -/

theorem advanceIndex_eq {xs : List Pt} {t : ℚ} (hs : List.Sorted xle xs) :
    ∀ d i, xs.length - i ≤ d → i ≤ xcount xs t → advanceIndex xs t i = xcount xs t := by
  intro d
  induction d with
  | zero =>
    intro i hd hi
    rw [advanceIndex]
    have hlen : xs.length ≤ i := by omega
    rw [dif_neg (by push_neg; intro hlt; omega)]
    have := xcount_le_length xs t
    omega
  | succ d ihd =>
    intro i hd hi
    rw [advanceIndex]
    by_cases hc : i < xs.length ∧ (xs.getD i default).x < t
    · rw [dif_pos hc]
      have hix : i < xcount xs t := by
        by_contra hcon
        push_neg at hcon
        exact absurd hc.2 (not_lt.mpr (le_getD_x_of_xcount_le hs hcon hc.1))
      exact ihd (i + 1) (by omega) hix
    · rw [dif_neg hc]
      rcases Nat.lt_or_ge i xs.length with hlt | hge
      · have hb : ¬(xs.getD i default).x < t := fun hb => hc ⟨hlt, hb⟩
        have hle : xcount xs t ≤ i := by
          by_contra hcon
          push_neg at hcon
          exact hb (getD_x_lt_of_lt_xcount hs hcon)
        omega
      · have := xcount_le_length xs t
        omega

theorem buildIndexAux_eq_map {xs : List Pt} {xmin xstep : ℚ} {nslice : ℕ}
    (hs : List.Sorted xle xs) (hstep : 0 ≤ xstep) :
    ∀ d islice istar, nslice - islice ≤ d →
      istar ≤ xcount xs (xmin + islice * xstep) →
      buildIndexAux xs xmin xstep nslice islice istar =
        (List.range' islice (nslice - islice)).map
          (fun j : ℕ => xcount xs (xmin + j * xstep)) := by
  intro d
  induction d with
  | zero =>
    intro islice istar hd _
    rw [buildIndexAux]
    have : ¬ islice < nslice := by omega
    rw [if_neg this]
    have hz : nslice - islice = 0 := by omega
    rw [hz]
    rfl
  | succ d ihd =>
    intro islice istar hd hi
    rw [buildIndexAux]
    by_cases hlt : islice < nslice
    · rw [if_pos hlt]
      have hadv : advanceIndex xs (xmin + islice * xstep) istar =
          xcount xs (xmin + islice * xstep) :=
        advanceIndex_eq hs xs.length istar (by omega) hi
      have hthr : (xmin + islice * xstep : ℚ) ≤ xmin + (islice + 1 : ℕ) * xstep := by
        push_cast
        nlinarith
      have hrec := ihd (islice + 1) (xcount xs (xmin + islice * xstep)) (by omega)
        (xcount_mono hthr)
      rw [hadv, hrec]
      have hn : nslice - islice = (nslice - (islice + 1)) + 1 := by omega
      rw [hn, List.range'_succ]
      rfl
    · rw [if_neg hlt]
      have hz : nslice - islice = 0 := by omega
      rw [hz]
      rfl

theorem buildIndexAux_length (xs : List Pt) (xmin xstep : ℚ) (nslice : ℕ) :
    ∀ d islice istar, nslice - islice ≤ d →
      (buildIndexAux xs xmin xstep nslice islice istar).length = nslice - islice := by
  intro d
  induction d with
  | zero =>
    intro islice istar hd
    rw [buildIndexAux]
    have : ¬ islice < nslice := by omega
    rw [if_neg this]
    simp
    omega
  | succ d ihd =>
    intro islice istar hd
    rw [buildIndexAux]
    by_cases hlt : islice < nslice
    · rw [if_pos hlt]
      simp only [List.length_cons]
      rw [ihd (islice + 1) _ (by omega)]
      omega
    · rw [if_neg hlt]
      simp
      omega

/-- `index[j]` as the C++ reads it back. -/
def idxF (xs : List Pt) (xmin xstep : ℚ) (nslice j : ℕ) : ℕ :=
  (indexList xs xmin xstep nslice).getD j 0

theorem idxF_zero (xs : List Pt) (xmin xstep : ℚ) (nslice : ℕ) :
    idxF xs xmin xstep nslice 0 = 0 := rfl

theorem idxF_last {xs : List Pt} {xmin xstep : ℚ} {nslice : ℕ} (h1 : 1 ≤ nslice) :
    idxF xs xmin xstep nslice nslice = xs.length := by
  unfold idxF indexList
  have hlen : (0 :: buildIndexAux xs xmin xstep nslice 1 0).length = nslice := by
    simp only [List.length_cons]
    rw [buildIndexAux_length xs xmin xstep nslice (nslice - 1) 1 0 (by omega)]
    omega
  rw [List.getD_eq_getElem?_getD, List.getElem?_append_right (by omega)]
  simp [hlen]

theorem idxF_mid {xs : List Pt} {xmin xstep : ℚ} {nslice : ℕ}
    (hs : List.Sorted xle xs) (hstep : 0 ≤ xstep) {j : ℕ} (h1 : 1 ≤ j) (hj : j < nslice) :
    idxF xs xmin xstep nslice j = xcount xs (xmin + j * xstep) := by
  unfold idxF indexList
  rw [buildIndexAux_eq_map hs hstep (nslice - 1) 1 0 (by omega) (by omega)]
  rcases Nat.exists_eq_add_of_le h1 with ⟨j', rfl⟩
  have hlen : ((0 :: (List.range' 1 (nslice - 1)).map
      (fun j : ℕ => xcount xs (xmin + j * xstep))).length) = nslice := by
    simp only [List.length_cons, List.length_map, List.length_range']
    omega
  rw [List.getD_eq_getElem?_getD]
  rw [show 1 + j' = j' + 1 from by omega]
  rw [List.getElem?_append_left (by omega)]
  rw [List.getElem?_cons_succ]
  have hj'lt : j' < ((List.range' 1 (nslice - 1)).map
      (fun j : ℕ => xcount xs (xmin + j * xstep))).length := by
    simp only [List.length_map, List.length_range']
    omega
  rw [List.getElem?_eq_getElem hj'lt]
  simp only [Option.getD_some, List.getElem_map]
  congr 1
  rw [List.getElem_range']
  push_cast
  ring

/-! ### The y binary searches never lose an in-band element -/

theorem locateYStartLoop_spec (sl : List Pt) (Y : ℚ) :
    ∀ span b, b + span ≤ sl.length - 1 →
      (b = 0 ∨ (sl.getD b default).y < Y) →
      locateYStartLoop sl Y b span ≤ b + span ∧
        b ≤ locateYStartLoop sl Y b span ∧
        (locateYStartLoop sl Y b span = 0 ∨
          (sl.getD (locateYStartLoop sl Y b span) default).y < Y) := by
  intro span
  induction span using Nat.strong_induction_on with
  | _ span ih =>
    intro b hb hprop
    rw [locateYStartLoop]
    by_cases h : 1 < span
    · rw [dif_pos h]
      by_cases hy : (sl.getD (b + span / 2) default).y < Y
      · rw [if_pos hy]
        have hrec := ih (span - span / 2) (by omega) (b + span / 2) (by omega) (Or.inr hy)
        refine ⟨by omega, by omega, hrec.2.2⟩
      · rw [if_neg hy]
        have hrec := ih (span / 2) (by omega) b (by omega) hprop
        refine ⟨by omega, hrec.2.1, hrec.2.2⟩
    · rw [dif_neg h]
      exact ⟨by omega, le_refl b, hprop⟩

theorem locateYEndLoop_spec (sl : List Pt) (Y : ℚ) :
    ∀ span e, e ≤ sl.length → span < e →
      (e = sl.length ∨ Y < (sl.getD e default).y) →
      e - span ≤ locateYEndLoop sl Y e span ∧
        locateYEndLoop sl Y e span ≤ e ∧
        (locateYEndLoop sl Y e span = sl.length ∨
          Y < (sl.getD (locateYEndLoop sl Y e span) default).y) := by
  intro span
  induction span using Nat.strong_induction_on with
  | _ span ih =>
    intro e he hspan hprop
    rw [locateYEndLoop]
    by_cases h : 1 < span
    · rw [dif_pos h]
      by_cases hy : Y < (sl.getD (e - span / 2) default).y
      · rw [if_pos hy]
        have hrec := ih (span - span / 2) (by omega) (e - span / 2) (by omega)
          (by omega) (Or.inr hy)
        refine ⟨by omega, by omega, hrec.2.2⟩
      · rw [if_neg hy]
        have hrec := ih (span / 2) (by omega) e he (by omega) hprop
        refine ⟨by omega, hrec.2.1, hrec.2.2⟩
    · rw [dif_neg h]
      exact ⟨by omega, le_refl e, hprop⟩

/-- An element of a y-sorted slice whose y lies in [YStart, YEnd] is inside
the inclusive range the iterator walks. -/
theorem mem_sliceYield_of_inband {sl : List Pt} (hsl : List.Sorted yle sl) {k : ℕ}
    (hk : k < sl.length) {ys ye : ℚ}
    (h1 : ys ≤ (sl.getD k default).y) (h2 : (sl.getD k default).y ≤ ye) :
    sl.getD k default ∈ sliceYield sl ys ye := by
  have hne : sl.length ≠ 0 := by omega
  unfold sliceYield findRangeInSlice locateYStartSlice
  rw [if_neg hne]
  have hsspec := locateYStartLoop_spec sl ys (sl.length - 1) 0 (by omega) (Or.inl rfl)
  set s := locateYStartLoop sl ys 0 (sl.length - 1) with hs_def
  have hs_le_k : s ≤ k := by
    rcases hsspec.2.2 with h0 | hlt
    · omega
    · by_contra hcon
      push_neg at hcon
      have := sorted_y_mono hsl (le_of_lt hcon) (by omega)
      linarith
  have hespec := locateYEndLoop_spec sl ye (sl.length - s - 1) sl.length (le_refl _)
    (by omega) (Or.inl rfl)
  have he_k : k ≤ locateYEndSlice sl s ye := by
    unfold locateYEndSlice
    rcases hespec.2.2 with hlenc | hgt
    · omega
    · by_contra hcon
      push_neg at hcon
      have hEle : locateYEndLoop sl ye sl.length (sl.length - s - 1) ≤ k := by omega
      have := sorted_y_mono hsl hEle hk
      linarith
  have he_lt : locateYEndSlice sl s ye < sl.length := by
    unfold locateYEndSlice
    omega
  simp only
  rw [List.mem_iff_getElem]
  refine ⟨k - s, ?_, ?_⟩
  · simp only [List.length_take, List.length_drop]
    omega
  · rw [List.getElem_take, List.getElem_drop]
    rw [List.getD_eq_getElem _ _ hk]
    congr 1
    omega

/-! ### Structure of the built index -/

/-- The x-sorted star array of the constructor. -/
def sortedStars (L : List Pt) : List Pt := L.insertionSort xle

/-- xmin as the constructor computes it. -/
def ffXmin (L : List Pt) : ℚ := ((sortedStars L).getD 0 default).x

/-- xmax as the constructor computes it. -/
def ffXmax (L : List Pt) : ℚ :=
  ((sortedStars L).getD ((sortedStars L).length - 1) default).x

/-- nslice as the constructor computes it. -/
def ffNslice (L : List Pt) (req : ℕ) : ℕ :=
  if ffXmin L = ffXmax L then 1 else min req L.length

/-- xstep as the constructor computes it. -/
def ffXstep (L : List Pt) (req : ℕ) : ℚ :=
  (ffXmax L - ffXmin L) / ffNslice L req

/-- Slice j as the constructor builds it: the segment of the x-sorted array
between index[j] and index[j+1], re-sorted by y. -/
def ffSlice (L : List Pt) (req j : ℕ) : List Pt :=
  (((sortedStars L).drop (idxF (sortedStars L) (ffXmin L) (ffXstep L req) (ffNslice L req) j)).take
      (idxF (sortedStars L) (ffXmin L) (ffXstep L req) (ffNslice L req) (j + 1) -
        idxF (sortedStars L) (ffXmin L) (ffXstep L req) (ffNslice L req) j)).insertionSort yle

theorem sortedStars_sorted (L : List Pt) : List.Sorted xle (sortedStars L) :=
  List.sorted_insertionSort xle L

theorem sortedStars_perm (L : List Pt) : (sortedStars L).Perm L :=
  List.perm_insertionSort xle L

theorem sortedStars_length (L : List Pt) : (sortedStars L).length = L.length :=
  (sortedStars_perm L).length_eq

theorem mkFastFinder_fields {L : List Pt} (req : ℕ) (h : L.length ≠ 0) :
    (mkFastFinder L req).nslice = ffNslice L req ∧
      (mkFastFinder L req).xstep = ffXstep L req ∧
      (mkFastFinder L req).count = L.length ∧
      (mkFastFinder L req).xmin = ffXmin L ∧
      (mkFastFinder L req).xmax = ffXmax L := by
  unfold mkFastFinder
  rw [if_neg h]
  exact ⟨rfl, rfl, rfl, rfl, rfl⟩

theorem mkFastFinder_slices {L : List Pt} (req : ℕ) (h : L.length ≠ 0) :
    (mkFastFinder L req).slices = (List.range (ffNslice L req)).map (ffSlice L req) := by
  unfold mkFastFinder
  rw [if_neg h]
  rfl

theorem mkFastFinder_slices_getD {L : List Pt} {req : ℕ} (h : L.length ≠ 0)
    {j : ℕ} (hj : j < ffNslice L req) :
    (mkFastFinder L req).slices.getD j [] = ffSlice L req j := by
  rw [mkFastFinder_slices req h]
  rw [List.getD_eq_getElem _ _ (by simp only [List.length_map, List.length_range]; exact hj)]
  simp only [List.getElem_map, List.getElem_range]

theorem ffNslice_pos {L : List Pt} {req : ℕ} (h : L.length ≠ 0) (hreq : 1 ≤ req) :
    1 ≤ ffNslice L req := by
  unfold ffNslice
  split
  · omega
  · omega

theorem ffXmin_le_ffXmax {L : List Pt} (h : L.length ≠ 0) : ffXmin L ≤ ffXmax L := by
  unfold ffXmin ffXmax
  have hlen : (sortedStars L).length = L.length := sortedStars_length L
  exact sorted_x_mono (sortedStars_sorted L) (by omega) (by omega)

theorem ffXstep_nonneg {L : List Pt} {req : ℕ} (h : L.length ≠ 0) (hreq : 1 ≤ req) :
    0 ≤ ffXstep L req := by
  unfold ffXstep
  have h1 := ffXmin_le_ffXmax h
  have h2 := ffNslice_pos h hreq
  apply div_nonneg (by linarith)
  positivity

theorem ffXstep_zero_iff {L : List Pt} {req : ℕ} (h : L.length ≠ 0) (hreq : 1 ≤ req) :
    ffXstep L req = 0 ↔ ffXmin L = ffXmax L := by
  unfold ffXstep
  have h2 := ffNslice_pos h hreq
  rw [div_eq_zero_iff]
  constructor
  · rintro (hz | hz)
    · linarith [sub_eq_zero.mp hz]
    · exfalso
      have hne : (ffNslice L req : ℚ) ≠ 0 := Nat.cast_ne_zero.mpr (by omega)
      exact hne hz
  · intro hz
    left
    rw [hz]
    ring

/-- index[j] of the built FastFinder. -/
def ffIdx (L : List Pt) (req j : ℕ) : ℕ :=
  idxF (sortedStars L) (ffXmin L) (ffXstep L req) (ffNslice L req) j

theorem ffIdx_zero (L : List Pt) (req : ℕ) : ffIdx L req 0 = 0 := rfl

theorem ffIdx_last {L : List Pt} {req : ℕ} (h : L.length ≠ 0) (hreq : 1 ≤ req) :
    ffIdx L req (ffNslice L req) = L.length := by
  unfold ffIdx
  rw [idxF_last (ffNslice_pos h hreq)]
  exact sortedStars_length L

theorem ffIdx_mid {L : List Pt} {req : ℕ} {j : ℕ} (h1 : 1 ≤ j) (hj : j < ffNslice L req)
    (hreq : 1 ≤ req) (h : L.length ≠ 0) :
    ffIdx L req j = xcount (sortedStars L) (ffXmin L + j * ffXstep L req) :=
  idxF_mid (sortedStars_sorted L) (ffXstep_nonneg h hreq) h1 hj

theorem ffIdx_le_length {L : List Pt} {req : ℕ} (h : L.length ≠ 0) (hreq : 1 ≤ req)
    {j : ℕ} (hj : j ≤ ffNslice L req) : ffIdx L req j ≤ L.length := by
  rcases Nat.eq_or_lt_of_le hj with rfl | hlt
  · rw [ffIdx_last h hreq]
  · rcases Nat.eq_zero_or_pos j with rfl | hpos
    · rw [ffIdx_zero]
      omega
    · rw [ffIdx_mid hpos hlt hreq h]
      have := xcount_le_length (sortedStars L) (ffXmin L + j * ffXstep L req)
      rw [sortedStars_length] at this
      exact this

/-- xmax is exactly the right edge of the last slice: the division is exact
over ℚ. -/
theorem ffXmax_eq_edge {L : List Pt} {req : ℕ} (h : L.length ≠ 0) (hreq : 1 ≤ req) :
    ffXmax L = ffXmin L + (ffNslice L req) * ffXstep L req := by
  unfold ffXstep
  have hns : (ffNslice L req : ℚ) ≠ 0 :=
    Nat.cast_ne_zero.mpr (by have := ffNslice_pos h hreq; omega)
  field_simp

/-- A star in slice j has x between the slice's lower edge and (j+1)'s edge
(the last slice reaches xmax exactly). -/
theorem ffSlice_x_bounds {L : List Pt} {req : ℕ} (h : L.length ≠ 0) (hreq : 1 ≤ req)
    {j : ℕ} (hj : j < ffNslice L req) {s : Pt} (hm : s ∈ ffSlice L req j) :
    ffXmin L + j * ffXstep L req ≤ s.x ∧ s.x ≤ ffXmin L + (j + 1 : ℕ) * ffXstep L req := by
  have hlen := sortedStars_length L
  have hsx := sortedStars_sorted L
  unfold ffSlice at hm
  rw [(List.perm_insertionSort yle _).mem_iff] at hm
  rw [List.mem_iff_getElem] at hm
  obtain ⟨k', hk', heq⟩ := hm
  have hffidx : ∀ jj, idxF (sortedStars L) (ffXmin L) (ffXstep L req) (ffNslice L req) jj
      = ffIdx L req jj := fun _ => rfl
  simp only [List.length_take, List.length_drop, hffidx] at hk'
  rw [List.getElem_take, List.getElem_drop] at heq
  simp only [hffidx] at heq
  have hmlt : ffIdx L req j + k' < (sortedStars L).length := by omega
  have hmb : ffIdx L req j + k' < ffIdx L req (j + 1) := by omega
  have hgetD : (sortedStars L).getD (ffIdx L req j + k') default = s := by
    rw [List.getD_eq_getElem _ _ hmlt]
    exact heq
  constructor
  · rcases Nat.eq_zero_or_pos j with rfl | hpos
    · have hmono := sorted_x_mono hsx (Nat.zero_le (ffIdx L req 0 + k')) hmlt
      rw [hgetD] at hmono
      have hx : ffXmin L ≤ s.x := hmono
      push_cast
      linarith
    · have ha' : xcount (sortedStars L) (ffXmin L + j * ffXstep L req) ≤ ffIdx L req j + k' := by
        rw [← ffIdx_mid hpos hj hreq h]
        omega
      have := le_getD_x_of_xcount_le hsx ha' hmlt
      rw [hgetD] at this
      exact this
  · rcases Nat.lt_or_ge (j + 1) (ffNslice L req) with hlt | hge
    · have hb' : ffIdx L req j + k' < xcount (sortedStars L)
          (ffXmin L + (j + 1 : ℕ) * ffXstep L req) := by
        rw [← ffIdx_mid (by omega) hlt hreq h]
        omega
      have := getD_x_lt_of_lt_xcount hsx hb'
      rw [hgetD] at this
      exact le_of_lt this
    · have hj1 : j + 1 = ffNslice L req := by omega
      have hmono := sorted_x_mono hsx
        (show ffIdx L req j + k' ≤ (sortedStars L).length - 1 by omega)
        (show (sortedStars L).length - 1 < (sortedStars L).length by omega)
      rw [hgetD] at hmono
      have hxmax : s.x ≤ ffXmax L := hmono
      rw [hj1, ← ffXmax_eq_edge h hreq]
      exact hxmax

/-- Locating a position inside a chain of intervals starting at 0. -/
theorem exists_idx_between {g : ℕ → ℕ} (h0 : g 0 = 0) :
    ∀ m k, k < g m → ∃ j < m, g j ≤ k ∧ k < g (j + 1) := by
  intro m
  induction m with
  | zero => intro k hk; omega
  | succ m ih =>
    intro k hk
    by_cases hgm : g m ≤ k
    · exact ⟨m, by omega, hgm, hk⟩
    · push_neg at hgm
      obtain ⟨j, hj, h1, h2⟩ := ih k hgm
      exact ⟨j, by omega, h1, h2⟩

/-- Every star of the list lands in some slice of the built index. -/
theorem mem_ffSlice_of_mem {L : List Pt} {req : ℕ} (h : L.length ≠ 0) (hreq : 1 ≤ req)
    {s : Pt} (hs : s ∈ L) : ∃ j < ffNslice L req, s ∈ ffSlice L req j := by
  have hlen := sortedStars_length L
  have hmem : s ∈ sortedStars L := (sortedStars_perm L).mem_iff.mpr hs
  rw [List.mem_iff_getElem] at hmem
  obtain ⟨k, hk, hks⟩ := hmem
  have hklen : k < ffIdx L req (ffNslice L req) := by
    rw [ffIdx_last h hreq]
    omega
  obtain ⟨j, hj, hjk1, hjk2⟩ :=
    exists_idx_between (ffIdx_zero L req) (ffNslice L req) k hklen
  refine ⟨j, hj, ?_⟩
  unfold ffSlice
  rw [(List.perm_insertionSort yle _).mem_iff]
  rw [List.mem_iff_getElem]
  have hffidx : ∀ jj, idxF (sortedStars L) (ffXmin L) (ffXstep L req) (ffNslice L req) jj
      = ffIdx L req jj := fun _ => rfl
  refine ⟨k - ffIdx L req j, ?_, ?_⟩
  · simp only [List.length_take, List.length_drop, hffidx]
    omega
  · rw [List.getElem_take, List.getElem_drop]
    simp only [hffidx]
    have hidx : ffIdx L req j + (k - ffIdx L req j) = k := by omega
    have h1 : (sortedStars L).getD (ffIdx L req j + (k - ffIdx L req j)) default =
        (sortedStars L).getD k default := by rw [hidx]
    rw [List.getD_eq_getElem _ _ (by omega), List.getD_eq_getElem _ _ hk] at h1
    rw [h1]
    exact hks

/-- A slice whose x-range meets the query band [p.x - d, p.x + d] strictly on
the left and at least weakly on the right is visited by the scan. -/
theorem slice_visited {L : List Pt} {req : ℕ} (h : L.length ≠ 0) (hreq : 1 ≤ req)
    {j : ℕ} (hj : j < ffNslice L req) {p : Pt} {d sx : ℚ}
    (hlow : ffXmin L + j * ffXstep L req ≤ sx)
    (hhigh : sx ≤ ffXmin L + (j + 1 : ℕ) * ffXstep L req)
    (hband1 : p.x - d < sx) (hband2 : sx ≤ p.x + d) :
    j ∈ visitedSlices (mkFastFinder L req) p d := by
  obtain ⟨hns, hxstep, hcount, hxmin, hxmax⟩ := mkFastFinder_fields (L := L) req h
  by_cases hz : ffXstep L req = 0
  · have hsb : scanBounds (mkFastFinder L req) p d = ((0 : ℤ), (1 : ℤ)) := by
      unfold scanBounds
      rw [hxstep]
      simp [hz]
    have hns1 : ffNslice L req = 1 := by
      unfold ffNslice
      rw [if_pos ((ffXstep_zero_iff h hreq).mp hz)]
    have hj0 : j = 0 := by omega
    simp only [visitedSlices]
    rw [hsb, hns]
    dsimp only
    rw [if_neg (by push_neg; exact ⟨by omega, by omega⟩)]
    subst hj0
    simp [List.mem_range'_1]
  · have hpos : 0 < ffXstep L req := lt_of_le_of_ne (ffXstep_nonneg h hreq) (Ne.symm hz)
    have hsb : scanBounds (mkFastFinder L req) p d =
        (max 0 (ratTrunc ((p.x - d - ffXmin L) / ffXstep L req)),
          min (ffNslice L req : ℤ)
            (ratTrunc ((p.x + d - ffXmin L) / ffXstep L req) + 1)) := by
      unfold scanBounds
      rw [hxstep, hxmin, hns]
      rw [if_pos hz]
    have hv1 : (p.x - d - ffXmin L) / ffXstep L req < (j : ℚ) + 1 := by
      rw [div_lt_iff hpos]
      push_cast at hhigh ⊢
      nlinarith
    have hv2 : (j : ℚ) ≤ (p.x + d - ffXmin L) / ffXstep L req := by
      rw [le_div_iff hpos]
      push_cast at hlow ⊢
      nlinarith
    have ht1 : ratTrunc ((p.x - d - ffXmin L) / ffXstep L req) ≤ (j : ℤ) :=
      ratTrunc_le j _ hv1
    have ht2 : (j : ℤ) ≤ ratTrunc ((p.x + d - ffXmin L) / ffXstep L req) :=
      le_ratTrunc j _ hv2
    simp only [visitedSlices]
    rw [hsb, hns]
    dsimp only
    rw [if_neg (by push_neg; exact ⟨by omega, by omega⟩)]
    rw [List.mem_range'_1]
    omega

/-- A visited slice index is below nslice. -/
theorem visited_lt_nslice {f : FastFinder} {p : Pt} {d : ℚ} {j : ℕ}
    (hj : j ∈ visitedSlices f p d) : j < f.nslice := by
  simp only [visitedSlices] at hj
  by_cases hg : (f.nslice : ℤ) ≤ (scanBounds f p d).1 ∨ (scanBounds f p d).2 < 0
  · rw [if_pos hg] at hj
    simp at hj
  · rw [if_neg hg] at hj
    rw [List.mem_range'_1] at hj
    have hle : (scanBounds f p d).2 ≤ (f.nslice : ℤ) := by
      unfold scanBounds
      by_cases hz : f.xstep ≠ 0
      · rw [if_pos hz]
        exact min_le_left _ _
      · rw [if_neg hz]
        push_neg at hg
        unfold scanBounds at hg
        rw [if_neg hz] at hg
        dsimp only at hg ⊢
        omega
    push_neg at hg
    omega

/-- A star of a visited slice with y inside [p.y - d, p.y + d] is yielded. -/
theorem inband_slice_mem_scanList {L : List Pt} {req : ℕ} {p : Pt} {d : ℚ} {j : ℕ}
    (hj : j ∈ visitedSlices (mkFastFinder L req) p d) {t : Pt}
    (ht : t ∈ (mkFastFinder L req).slices.getD j [])
    (h1 : p.y - d ≤ t.y) (h2 : t.y ≤ p.y + d) :
    t ∈ scanList (mkFastFinder L req) p d := by
  by_cases hL : L.length = 0
  · exfalso
    unfold mkFastFinder at ht
    rw [if_pos hL] at ht
    have hrep : (List.replicate req ([] : List Pt)).getD j [] = [] := by
      rcases Nat.lt_or_ge j req with hlt | hge
      · rw [List.getD_eq_getElem _ _ (by simpa using hlt)]
        simp
      · rw [List.getD_eq_getElem?_getD, List.getElem?_eq_none (by simpa using hge)]
        rfl
    rw [hrep] at ht
    simp at ht
  · have hjn : j < ffNslice L req := by
      have := visited_lt_nslice hj
      rwa [(mkFastFinder_fields req hL).1] at this
    rw [mkFastFinder_slices_getD hL hjn] at ht
    have hsorted : List.Sorted yle (ffSlice L req j) := List.sorted_insertionSort yle _
    rw [List.mem_iff_getElem] at ht
    obtain ⟨k, hk, hkt⟩ := ht
    have hgd : (ffSlice L req j).getD k default = t := by
      rw [List.getD_eq_getElem _ _ hk]
      exact hkt
    have hy := @mem_sliceYield_of_inband (ffSlice L req j) hsorted k hk
      (p.y - d) (p.y + d) (by rw [hgd]; exact h1) (by rw [hgd]; exact h2)
    rw [hgd] at hy
    unfold scanList
    rw [List.mem_flatMap]
    refine ⟨j, hj, ?_⟩
    rw [mkFastFinder_slices_getD hL hjn]
    exact hy

/-- Completeness for strictly-closer stars: every star at Euclidean distance
strictly below d is yielded by the scan. -/
theorem scan_complete {L : List Pt} {req : ℕ} {p : Pt} {d : ℚ}
    (hreq : 1 ≤ req) (hd : 0 ≤ d) {s : Pt} (hs : s ∈ L) (hdist : Dist2 p s < d ^ 2) :
    s ∈ scanList (mkFastFinder L req) p d := by
  have hL : L.length ≠ 0 := by
    intro h0
    rw [List.length_eq_zero] at h0
    subst h0
    simp at hs
  obtain ⟨j, hj, hmem⟩ := mem_ffSlice_of_mem hL hreq hs
  obtain ⟨hlow, hhigh⟩ := ffSlice_x_bounds hL hreq hj hmem
  have hx2 : (p.x - s.x) ^ 2 < d ^ 2 := by
    unfold Dist2 at hdist
    nlinarith [sq_nonneg (p.y - s.y)]
  have hy2 : (p.y - s.y) ^ 2 < d ^ 2 := by
    unfold Dist2 at hdist
    nlinarith [sq_nonneg (p.x - s.x)]
  have hxb1 : p.x - d < s.x := by nlinarith [sq_nonneg (p.x - s.x - d), sq_nonneg (p.x - s.x + d)]
  have hxb2 : s.x < p.x + d := by nlinarith [sq_nonneg (p.x - s.x - d), sq_nonneg (p.x - s.x + d)]
  have hyb1 : p.y - d < s.y := by nlinarith [sq_nonneg (p.y - s.y - d), sq_nonneg (p.y - s.y + d)]
  have hyb2 : s.y < p.y + d := by nlinarith [sq_nonneg (p.y - s.y - d), sq_nonneg (p.y - s.y + d)]
  have hvisited := slice_visited hL hreq hj hlow hhigh hxb1 (le_of_lt hxb2)
  exact inband_slice_mem_scanList hvisited
    (by rw [mkFastFinder_slices_getD hL hj]; exact hmem) (le_of_lt hyb1) (le_of_lt hyb2)

/-- C1 (amended): for every star list, slice request ≥ 1, query point p and
maxDist d ≥ 0, the scan started by begin_scan(p, d) yields every stored star
at Euclidean distance strictly less than d of p, and in each visited x-slice
the yielded sub-range contains every star of the slice with y in
[p.y - d, p.y + d] (the range is a superset: stars outside the band, even
beyond d·√2, may also be yielded, and a star at distance exactly d can be
missed at a slice boundary — see the counterexample). -/
theorem c1_scan_yields_all_near_stars (L : List Pt) (req : ℕ) (p : Pt) (d : ℚ)
    (hreq : 1 ≤ req) (hd : 0 ≤ d) :
    (∀ s ∈ L, Dist2 p s < d ^ 2 → s ∈ scanList (mkFastFinder L req) p d) ∧
    (∀ j ∈ visitedSlices (mkFastFinder L req) p d,
      ∀ t ∈ (mkFastFinder L req).slices.getD j [],
        p.y - d ≤ t.y → t.y ≤ p.y + d → t ∈ scanList (mkFastFinder L req) p d) := by
  constructor
  · intro s hs hdist
    exact scan_complete hreq hd hs hdist
  · intro j hj t ht h1 h2
    exact inband_slice_mem_scanList hj ht h1 h2

/-- Witness for c1_scan_yields_all_near_stars at a concrete input. -/
theorem c1_witness :
    (∀ s ∈ ([⟨0, 0⟩] : List Pt), Dist2 ⟨0, 0⟩ s < 1 ^ 2 →
      s ∈ scanList (mkFastFinder [⟨0, 0⟩] 1) ⟨0, 0⟩ 1) ∧
    (∀ j ∈ visitedSlices (mkFastFinder [⟨0, 0⟩] 1) ⟨0, 0⟩ 1,
      ∀ t ∈ (mkFastFinder [⟨0, 0⟩] 1).slices.getD j [],
        (⟨0, 0⟩ : Pt).y - 1 ≤ t.y → t.y ≤ (⟨0, 0⟩ : Pt).y + 1 →
          t ∈ scanList (mkFastFinder [⟨0, 0⟩] 1) ⟨0, 0⟩ 1) :=
  c1_scan_yields_all_near_stars [⟨0, 0⟩] 1 ⟨0, 0⟩ 1 (by norm_num) (by norm_num)

/-! ### Concrete evaluations of the scan, for the C1 counterexample -/

theorem ratTrunc_natCast (n : ℕ) : ratTrunc (n : ℚ) = n := by
  unfold ratTrunc
  rw [Rat.num_natCast, Rat.den_natCast]
  simp

theorem evalA_sortX : ([⟨0, 0⟩, ⟨0, 100⟩] : List Pt).insertionSort xle =
    [⟨0, 0⟩, ⟨0, 100⟩] := by
  rw [List.insertionSort, List.insertionSort, List.insertionSort]
  rw [List.orderedInsert, List.orderedInsert]
  rw [if_pos (by norm_num [xle])]

theorem evalA_sortY : ([⟨0, 0⟩, ⟨0, 100⟩] : List Pt).insertionSort yle =
    [⟨0, 0⟩, ⟨0, 100⟩] := by
  rw [List.insertionSort, List.insertionSort, List.insertionSort]
  rw [List.orderedInsert, List.orderedInsert]
  rw [if_pos (by norm_num [yle])]

theorem evalA_xmin : ffXmin [⟨0, 0⟩, ⟨0, 100⟩] = 0 := by
  unfold ffXmin sortedStars
  rw [evalA_sortX]
  rfl

theorem evalA_xmax : ffXmax [⟨0, 0⟩, ⟨0, 100⟩] = 0 := by
  unfold ffXmax sortedStars
  rw [evalA_sortX]
  rfl

theorem evalA_nslice : ffNslice [⟨0, 0⟩, ⟨0, 100⟩] 100 = 1 := by
  unfold ffNslice
  rw [evalA_xmin, evalA_xmax]
  rw [if_pos rfl]

theorem evalA_xstep : ffXstep [⟨0, 0⟩, ⟨0, 100⟩] 100 = 0 := by
  unfold ffXstep
  rw [evalA_xmin, evalA_xmax, evalA_nslice]
  norm_num

theorem evalA_slice0 : ffSlice [⟨0, 0⟩, ⟨0, 100⟩] 100 0 = [⟨0, 0⟩, ⟨0, 100⟩] := by
  have hidx1 : idxF (sortedStars [⟨0, 0⟩, ⟨0, 100⟩]) (ffXmin [⟨0, 0⟩, ⟨0, 100⟩])
      (ffXstep [⟨0, 0⟩, ⟨0, 100⟩] 100) (ffNslice [⟨0, 0⟩, ⟨0, 100⟩] 100) 1 = 2 := by
    have h := @ffIdx_last [⟨0, 0⟩, ⟨0, 100⟩] 100 (by norm_num) (by norm_num)
    unfold ffIdx at h
    rw [evalA_nslice] at h
    rw [evalA_nslice]
    exact h
  unfold ffSlice
  rw [hidx1, idxF_zero]
  unfold sortedStars
  rw [evalA_sortX]
  have hto : ((([⟨0, 0⟩, ⟨0, 100⟩] : List Pt).drop 0).take (2 - 0)) = [⟨0, 0⟩, ⟨0, 100⟩] := rfl
  rw [hto]
  exact evalA_sortY

theorem evalA_scan : scanList (mkFastFinder [⟨0, 0⟩, ⟨0, 100⟩] 100) ⟨0, 100⟩ 1 =
    [⟨0, 0⟩, ⟨0, 100⟩] := by
  obtain ⟨hns, hxstep, hcount, hxmin, hxmax⟩ :=
    mkFastFinder_fields (L := [⟨0, 0⟩, ⟨0, 100⟩]) 100 (by norm_num)
  have hvisited : visitedSlices (mkFastFinder [⟨0, 0⟩, ⟨0, 100⟩] 100) ⟨0, 100⟩ 1 = [0] := by
    simp only [visitedSlices, scanBounds]
    rw [hxstep, evalA_xstep, hns, evalA_nslice]
    rw [if_neg (by norm_num)]
    rw [if_neg (by norm_num)]
    rfl
  have hslice : (mkFastFinder [⟨0, 0⟩, ⟨0, 100⟩] 100).slices.getD 0 [] =
      [⟨0, 0⟩, ⟨0, 100⟩] := by
    rw [mkFastFinder_slices_getD (by norm_num) (by rw [evalA_nslice]; norm_num)]
    exact evalA_slice0
  unfold scanList
  rw [hvisited]
  simp only [List.flatMap_cons, List.flatMap_nil, List.append_nil]
  rw [hslice]
  unfold sliceYield findRangeInSlice locateYStartSlice
  rw [if_neg (by norm_num)]
  have hstart : locateYStartLoop [⟨0, 0⟩, ⟨0, 100⟩]
      ((⟨0, 100⟩ : Pt).y - 1) 0 (([⟨0, 0⟩, ⟨0, 100⟩] : List Pt).length - 1) = 0 := by
    rw [locateYStartLoop]
    rw [dif_neg (by norm_num)]
  have hend : locateYEndSlice [⟨0, 0⟩, ⟨0, 100⟩] 0 ((⟨0, 100⟩ : Pt).y + 1) = 1 := by
    unfold locateYEndSlice
    rw [locateYEndLoop]
    rw [dif_neg (by norm_num)]
    rfl
  simp only [hstart, hend]
  rfl

theorem evalB_sortX : ([⟨0, 0⟩, ⟨2, 0⟩] : List Pt).insertionSort xle =
    [⟨0, 0⟩, ⟨2, 0⟩] := by
  rw [List.insertionSort, List.insertionSort, List.insertionSort]
  rw [List.orderedInsert, List.orderedInsert]
  rw [if_pos (by norm_num [xle])]

theorem evalB_xmin : ffXmin [⟨0, 0⟩, ⟨2, 0⟩] = 0 := by
  unfold ffXmin sortedStars
  rw [evalB_sortX]
  rfl

theorem evalB_xmax : ffXmax [⟨0, 0⟩, ⟨2, 0⟩] = 2 := by
  unfold ffXmax sortedStars
  rw [evalB_sortX]
  rfl

theorem evalB_nslice : ffNslice [⟨0, 0⟩, ⟨2, 0⟩] 2 = 2 := by
  unfold ffNslice
  rw [evalB_xmin, evalB_xmax]
  rw [if_neg (by norm_num)]
  rfl

theorem evalB_xstep : ffXstep [⟨0, 0⟩, ⟨2, 0⟩] 2 = 1 := by
  unfold ffXstep
  rw [evalB_xmin, evalB_xmax, evalB_nslice]
  norm_num

theorem evalB_scan : scanList (mkFastFinder [⟨0, 0⟩, ⟨2, 0⟩] 2) ⟨3, 0⟩ 1 = [] := by
  obtain ⟨hns, hxstep, hcount, hxmin, hxmax⟩ :=
    mkFastFinder_fields (L := [⟨0, 0⟩, ⟨2, 0⟩]) 2 (by norm_num)
  have hvisited : visitedSlices (mkFastFinder [⟨0, 0⟩, ⟨2, 0⟩] 2) ⟨3, 0⟩ 1 = [] := by
    simp only [visitedSlices, scanBounds]
    rw [hxstep, evalB_xstep, hxmin, evalB_xmin, hns, evalB_nslice]
    rw [if_pos (show (1 : ℚ) ≠ 0 by norm_num)]
    dsimp only
    rw [if_pos (Or.inl (le_trans
      (by exact_mod_cast le_ratTrunc 2 _ (by norm_num)) (le_max_right _ _)))]
  unfold scanList
  rw [hvisited]
  rfl

/-- C1 counterexample, refuting the claim as stated at concrete inputs. With
stars (0,0) and (0,100) in one slice, the scan around p = (0,100) with d = 1
yields (0,0), a star at squared distance 10000 > 2·d² (beyond d·√2), and the
yielded sub-range is not exactly the stars with y in [p.y-1, p.y+1]. With
stars (0,0) and (2,0) in two slices, the scan around p = (3,0) with d = 1 is
empty although (2,0) lies at Euclidean distance exactly d. -/
theorem c1_counterexample :
    (⟨0, 0⟩ : Pt) ∈ scanList (mkFastFinder [⟨0, 0⟩, ⟨0, 100⟩] 100) ⟨0, 100⟩ 1 ∧
    2 * 1 ^ 2 < Dist2 (⟨0, 100⟩ : Pt) ⟨0, 0⟩ ∧
    ¬((⟨0, 0⟩ : Pt).y ∈ Set.Icc ((⟨0, 100⟩ : Pt).y - 1) ((⟨0, 100⟩ : Pt).y + 1)) ∧
    Dist2 (⟨3, 0⟩ : Pt) ⟨2, 0⟩ ≤ 1 ^ 2 ∧
    (⟨2, 0⟩ : Pt) ∉ scanList (mkFastFinder [⟨0, 0⟩, ⟨2, 0⟩] 2) ⟨3, 0⟩ 1 := by
  refine ⟨?_, ?_, ?_, ?_, ?_⟩
  · rw [evalA_scan]
    simp
  · norm_num [Dist2]
  · norm_num
  · norm_num [Dist2]
  · rw [evalB_scan]
    simp

/-! ### FindClosest: the fold over the scanned candidates -/

/-- One step of FindClosest's loop. -/
def fcStep (p : Pt) (SkipIt : Pt → Bool) (acc : Option Pt × ℚ) (s : Pt) : Option Pt × ℚ :=
  if SkipIt s then acc
  else if Dist2 p s < acc.2 then (some s, Dist2 p s) else acc

theorem FindClosest_eq_fold (f : FastFinder) (p : Pt) (MaxDist : ℚ) (SkipIt : Pt → Bool) :
    FindClosest f p MaxDist SkipIt =
      if f.count = 0 then none
      else ((scanList f p MaxDist).foldl (fcStep p SkipIt)
        ((none : Option Pt), MaxDist * MaxDist)).1 := rfl

theorem fcFold_snd_le (p : Pt) (SkipIt : Pt → Bool) :
    ∀ (l : List Pt) (acc : Option Pt × ℚ), (l.foldl (fcStep p SkipIt) acc).2 ≤ acc.2 := by
  intro l
  induction l with
  | nil => intro acc; exact le_refl _
  | cons a l ih =>
    intro acc
    rw [List.foldl_cons]
    refine le_trans (ih (fcStep p SkipIt acc a)) ?_
    unfold fcStep
    split
    · exact le_refl _
    · split
      · exact le_of_lt (by assumption)
      · exact le_refl _

theorem fcFold_snd_le_dist (p : Pt) (SkipIt : Pt → Bool) :
    ∀ (l : List Pt) (acc : Option Pt × ℚ) (t : Pt), t ∈ l → SkipIt t = false →
      (l.foldl (fcStep p SkipIt) acc).2 ≤ Dist2 p t := by
  intro l
  induction l with
  | nil => intro acc t ht; simp at ht
  | cons a l ih =>
    intro acc t ht hskip
    rw [List.foldl_cons]
    rcases List.mem_cons.mp ht with rfl | htl
    · refine le_trans (fcFold_snd_le p SkipIt l _) ?_
      unfold fcStep
      rw [hskip]
      simp only [Bool.false_eq_true, if_false]
      split
      · exact le_refl _
      · push_neg at *
        assumption
    · exact ih _ t htl hskip

theorem fcFold_cases (p : Pt) (SkipIt : Pt → Bool) :
    ∀ (l : List Pt) (acc : Option Pt × ℚ),
      l.foldl (fcStep p SkipIt) acc = acc ∨
      ∃ s ∈ l, SkipIt s = false ∧
        l.foldl (fcStep p SkipIt) acc = (some s, Dist2 p s) ∧ Dist2 p s < acc.2 := by
  intro l
  induction l with
  | nil => intro acc; exact Or.inl rfl
  | cons a l ih =>
    intro acc
    rw [List.foldl_cons]
    by_cases hskip : SkipIt a
    · have hstep : fcStep p SkipIt acc a = acc := by
        unfold fcStep
        rw [if_pos hskip]
      rw [hstep]
      rcases ih acc with h | ⟨s, hs, h1, h2, h3⟩
      · exact Or.inl h
      · exact Or.inr ⟨s, List.mem_cons_of_mem a hs, h1, h2, h3⟩
    · by_cases hclose : Dist2 p a < acc.2
      · have hstep : fcStep p SkipIt acc a = (some a, Dist2 p a) := by
          unfold fcStep
          rw [if_neg (by simp [hskip]), if_pos hclose]
        rw [hstep]
        rcases ih (some a, Dist2 p a) with h | ⟨s, hs, h1, h2, h3⟩
        · exact Or.inr ⟨a, List.mem_cons_self a l,
            Bool.not_eq_true _ ▸ (by simpa using hskip), h, hclose⟩
        · exact Or.inr ⟨s, List.mem_cons_of_mem a hs, h1, h2, lt_trans h3 hclose⟩
      · have hstep : fcStep p SkipIt acc a = acc := by
          unfold fcStep
          rw [if_neg (by simp [hskip]), if_neg hclose]
        rw [hstep]
        rcases ih acc with h | ⟨s, hs, h1, h2, h3⟩
        · exact Or.inl h
        · exact Or.inr ⟨s, List.mem_cons_of_mem a hs, h1, h2, h3⟩

/-- C10: FindClosest returns a star only at squared distance strictly below
MaxDist² (a star at exactly MaxDist is never returned), the returned star is
a scanned candidate not excluded by the predicate of minimal distance among
those, and when no scanned candidate lies strictly within MaxDist it
returns none. -/
theorem c10_findClosest_minimal (f : FastFinder) (p : Pt) (MaxDist : ℚ)
    (SkipIt : Pt → Bool) :
    (∀ s, FindClosest f p MaxDist SkipIt = some s →
      s ∈ scanList f p MaxDist ∧ SkipIt s = false ∧
        Dist2 p s < MaxDist * MaxDist ∧
        ∀ t ∈ scanList f p MaxDist, SkipIt t = false → Dist2 p s ≤ Dist2 p t) ∧
    ((∀ t ∈ scanList f p MaxDist, SkipIt t = false →
        ¬ Dist2 p t < MaxDist * MaxDist) →
      FindClosest f p MaxDist SkipIt = none) := by
  rw [FindClosest_eq_fold]
  by_cases hc : f.count = 0
  · rw [if_pos hc]
    constructor
    · intro s hs
      exact absurd hs (by simp)
    · intro _
      rfl
  · rw [if_neg hc]
    constructor
    · intro s hs
      rcases fcFold_cases p SkipIt (scanList f p MaxDist) (none, MaxDist * MaxDist) with
        h | ⟨s', hs', h1, h2, h3⟩
      · rw [h] at hs
        simp at hs
      · rw [h2] at hs
        simp only [Option.some.injEq] at hs
        subst hs
        refine ⟨hs', h1, h3, ?_⟩
      
        intro t ht htskip
        have := fcFold_snd_le_dist p SkipIt (scanList f p MaxDist)
          (none, MaxDist * MaxDist) t ht htskip
        rw [h2] at this
        exact this
    · intro hall
      rcases fcFold_cases p SkipIt (scanList f p MaxDist) (none, MaxDist * MaxDist) with
        h | ⟨s', hs', h1, h2, h3⟩
      · rw [h]
      · exact absurd h3 (hall s' hs' h1)

/-!
### FitterBase (src/FitterBase.cc)

The fitter operates on the Associations graph. The parts of FitterBase.cc
that are pure virtual or external are abstracted as fields of an `Engine`:
`accumulateMeas`/`accumulateRef` stand for the virtual
accumulateStatImageList/accumulateStatRefStars (their implementations live in
the model subclasses, outside the staged sources), `indicesOfMeas` for the
virtual getIndicesOfMeasuredStar, `derivatives` for leastSquareDerivatives
plus createHessian, `factorize`/`solve`/`downdate` for the Eigen/CHOLMOD
factorization object, `offsetParams`/`assignIndices` for the virtual
parameter handling. The chi2 value of a Chi2Statistic is the sum of the
accumulated contributions; its ndof field is never read on the modelled
paths and is omitted. Theorems quantify over every Engine.
-/

/-- One MeasuredStar as the fitter sees it: a validity flag and the owning
FittedStar. An out-of-range access yields the default, which is invalid. -/
structure MeasRec where
  valid : Bool
  fittedIndex : ℕ
deriving DecidableEq

instance : Inhabited MeasRec := ⟨⟨false, 0⟩⟩

/-- One FittedStar as the fitter sees it: measurementCount, whether a RefStar
is attached, and the star's index in the parameter vector. -/
structure FittedRec where
  count : ℤ
  hasRef : Bool
  indexInMatrix : ℕ
deriving DecidableEq

instance : Inhabited FittedRec := ⟨⟨0, false, 0⟩⟩

/-- The Associations bundle: measured stars, fitted stars and the model
parameters (of abstract type P). -/
structure Assoc (P : Type) where
  meas : List MeasRec
  fitted : List FittedRec
  params : P

/-- One Chi2Star: the contributing star (inl = a measured star's index,
inr = a fitted star's index for a reference term, mirroring the
dynamic_pointer_cast dispatch) and its chi2 value. -/
structure Contribution where
  star : ℕ ⊕ ℕ
  chi2 : ℚ
deriving DecidableEq

/-- The virtual and external operations FitterBase calls. -/
structure Engine (P G H F D : Type) where
  assignIndices : Assoc P → Assoc P
  accumulateMeas : Assoc P → List Contribution
  accumulateRef : Assoc P → List Contribution
  indicesOfMeas : Assoc P → ℕ → List ℕ
  derivatives : Assoc P → G × H
  factorize : H → Option F
  solve : F → G → D
  offsetParams : P → D → P
  outlierGrad : Assoc P → List ℕ → List ℕ → G
  negGrad : G → G
  downdate : F → Assoc P → List ℕ → List ℕ → F

variable {P G H F D : Type}

/-- The chi2 contribution list: measurement terms then reference terms, as
findOutliers and computeChi2 accumulate them. -/
def chi2ListOf (E : Engine P G H F D) (a : Assoc P) : List Contribution :=
  E.accumulateMeas a ++ E.accumulateRef a

/-- FitterBase::computeChi2's chi2 value: the accumulated sum (the ndof
bookkeeping is not read on any modelled path). -/
def computeChi2 (E : Engine P G H F D) (a : Assoc P) : ℚ :=
  ((chi2ListOf E a).map Contribution.chi2).sum

/-- Chi2Star ordering: by chi2 value. -/
def cle (c d : Contribution) : Prop := c.chi2 ≤ d.chi2

instance : DecidableRel cle := fun c d => inferInstanceAs (Decidable (c.chi2 ≤ d.chi2))

instance : IsTotal Contribution cle := ⟨fun c d => le_total c.chi2 d.chi2⟩

instance : IsTrans Contribution cle := ⟨fun _ _ _ h h' => le_trans h h'⟩

/-- The ascending sort of the chi2 list (std::sort with Chi2Star::operator<). -/
def sortChi2 (l : List Contribution) : List Contribution := l.insertionSort cle

/-- Modelled from the spec: the mean of Chi2List::computeAverageAndSigma
(src/Chi2.cc is not among the staged sources); the spec says it returns the
unweighted mean. -/
def meanOf (l : List ℚ) : ℚ := l.sum / l.length

/-- Modelled from the spec: the squared standard deviation of
Chi2List::computeAverageAndSigma, Σχ²/n − μ². -/
def varOf (l : List ℚ) : ℚ := (l.map (fun x => x ^ 2)).sum / l.length - meanOf l ^ 2

/-- Modelled from the spec: the standard deviation of the chi2 list. -/
noncomputable def sigmaOf (l : List ℚ) : ℝ := Real.sqrt ((varOf l : ℚ) : ℝ)

/-- The rejection threshold `cut = mean + nSigmaCut * sigma`. -/
noncomputable def cutOf (nSigmaCut : ℚ) (l : List ℚ) : ℝ :=
  ((meanOf l : ℚ) : ℝ) + (nSigmaCut : ℝ) * sigmaOf l

/-- The parameter indices a contribution constrains, with the two protective
skips: none for a reference term whose FittedStar has measurementCount 0,
none for a measurement term whose FittedStar has exactly one measurement and
no RefStar; otherwise the fitted star's matrix index (reference term) or
getIndicesOfMeasuredStar (measurement term). -/
def protectiveIndices (E : Engine P G H F D) (a : Assoc P) (c : Contribution) :
    Option (List ℕ) :=
  match c.star with
  | Sum.inr fi =>
    if (a.fitted.getD fi default).count = 0 then none
    else some [(a.fitted.getD fi default).indexInMatrix]
  | Sum.inl mi =>
    if (a.fitted.getD ((a.meas.getD mi default).fittedIndex) default).count = 1 ∧
        (a.fitted.getD ((a.meas.getD mi default).fittedIndex) default).hasRef = false then
      none
    else some (E.indicesOfMeas a mi)

/-- `affectedParams(i)++` over a contribution's index list. -/
def bumpAffected (aff : ℕ → ℕ) (ind : List ℕ) : ℕ → ℕ :=
  ind.foldl (fun g i => Function.update g i (g i + 1)) aff

/-- The rejection scan of findOutliers over the descending chi2 list:
stop at the first contribution below the cut, skip the protective cases,
keep a contribution that shares a parameter with an already recorded
stronger outlier, else record it and mark its parameters. Returns the
recorded contributions in scan order. -/
noncomputable def scanOutliers (E : Engine P G H F D) (a : Assoc P) (cut : ℝ) :
    List Contribution → (ℕ → ℕ) → List Contribution
  | [], _ => []
  | c :: rest, aff =>
    if (c.chi2 : ℝ) < cut then []
    else
      match protectiveIndices E a c with
      | none => scanOutliers E a cut rest aff
      | some ind =>
        if ind.any (fun i => aff i != 0) then scanOutliers E a cut rest aff
        else c :: scanOutliers E a cut rest (bumpAffected aff ind)

/-- FitterBase::findOutliers: the recorded outliers, in the order the scan
records them. The two output lists and the returned count are derived below. -/
noncomputable def findOutliersRec (E : Engine P G H F D) (a : Assoc P)
    (nSigmaCut : ℚ) : List Contribution :=
  let l := chi2ListOf E a
  if l.length = 0 then []
  else
    scanOutliers E a (cutOf nSigmaCut ((sortChi2 l).map Contribution.chi2))
      ((sortChi2 l).reverse) (fun _ => 0)

/-- The measured-star component of a Chi2Star, when it is a measurement term. -/
def measStarOf (c : Contribution) : Option ℕ :=
  match c.star with
  | Sum.inl m => some m
  | Sum.inr _ => none

/-- The fitted-star component of a Chi2Star, when it is a reference term. -/
def fitStarOf (c : Contribution) : Option ℕ :=
  match c.star with
  | Sum.inl _ => none
  | Sum.inr f => some f

/-- msOutliers as findOutliers fills it. -/
noncomputable def findOutliersMs (E : Engine P G H F D) (a : Assoc P) (k : ℚ) : List ℕ :=
  (findOutliersRec E a k).filterMap measStarOf

/-- fsOutliers as findOutliers fills it. -/
noncomputable def findOutliersFs (E : Engine P G H F D) (a : Assoc P) (k : ℚ) : List ℕ :=
  (findOutliersRec E a k).filterMap fitStarOf

/-- The nOutliers count findOutliers returns. -/
noncomputable def findOutliersCount (E : Engine P G H F D) (a : Assoc P) (k : ℚ) : ℕ :=
  (findOutliersRec E a k).length

/-- One iteration of FitterBase::removeMeasOutliers' loop: mark the measured
star invalid and decrement its FittedStar's measurementCount. -/
def removeOneMeas (a : Assoc P) (m : ℕ) : Assoc P :=
  let mr := a.meas.getD m default
  let a1 : Assoc P := { a with meas := a.meas.set m { mr with valid := false } }
  let fr := a1.fitted.getD mr.fittedIndex default
  { a1 with fitted := a1.fitted.set mr.fittedIndex { fr with count := fr.count - 1 } }

/-- FitterBase::removeMeasOutliers. -/
def removeMeasOutliers (a : Assoc P) (outliers : List ℕ) : Assoc P :=
  outliers.foldl removeOneMeas a

/-- FitterBase::removeRefOutliers: setRefStar(nullptr) on each outlier. -/
def removeRefOutliers (a : Assoc P) (outliers : List ℕ) : Assoc P :=
  outliers.foldl
    (fun acc fi =>
      { acc with
        fitted := acc.fitted.set fi { acc.fitted.getD fi default with hasRef := false } }) a

/-- MinimizeResult. -/
inductive MinimizeResult where
  | Converged
  | Chi2Increased
  | Failed
deriving DecidableEq

/-- The state carried across iterations of minimize's while loop. -/
structure LoopState (P G F : Type) where
  a : Assoc P
  grad : G
  chol : F
  oldChi2 : ℚ
  totalMeas : ℕ
  totalRef : ℕ

/-- The outcome of one loop iteration: a break with the returned code and the
final Associations, or the state for the next iteration. -/
inductive StepResult (P G F : Type) where
  | done : MinimizeResult → Assoc P → StepResult P G F
  | next : LoopState P G F → StepResult P G F

/-- offsetParams applied through the Associations (only the parameters move;
validity flags and measurement counts are untouched). -/
def offsetAssoc (E : Engine P G H F D) (a : Assoc P) (delta : D) : Assoc P :=
  { a with params := E.offsetParams a.params delta }

/-- One iteration of minimize's while loop: solve, offsetParams, computeChi2,
the Chi2Increased break, the nSigmaCut == 0 break, findOutliers, the
no-outlier break, outlier removal, then the rank-update path (downdate and
negate the outlier gradient) or the rebuild path (recompute derivatives and
refactor, Failed on factorization failure). -/
noncomputable def minimizeStep (E : Engine P G H F D) (nSigmaCut : ℚ)
    (doRankUpdate : Bool) (st : LoopState P G F) : StepResult P G F :=
  let delta := E.solve st.chol st.grad
  let a1 := offsetAssoc E st.a delta
  let c := computeChi2 E a1
  if st.oldChi2 < c ∧ st.totalMeas + st.totalRef ≠ 0 then
    StepResult.done MinimizeResult.Chi2Increased a1
  else if nSigmaCut = 0 then StepResult.done MinimizeResult.Converged a1
  else
    let ms := findOutliersMs E a1 nSigmaCut
    let fs := findOutliersFs E a1 nSigmaCut
    if findOutliersCount E a1 nSigmaCut = 0 then
      StepResult.done MinimizeResult.Converged a1
    else
      let a2 := removeRefOutliers (removeMeasOutliers a1 ms) fs
      if doRankUpdate then
        StepResult.next ⟨a2, E.negGrad (E.outlierGrad a1 ms fs),
          E.downdate st.chol a1 ms fs, c,
          st.totalMeas + ms.length, st.totalRef + fs.length⟩
      else
        match E.factorize (E.derivatives a2).2 with
        | none => StepResult.done MinimizeResult.Failed a2
        | some chol2 => StepResult.next ⟨a2, (E.derivatives a2).1, chol2, c,
            st.totalMeas + ms.length, st.totalRef + fs.length⟩

/-- minimize's while(true) loop, with fuel (the C++ loop has no built-in
bound; every claim about it is conditional on termination within the fuel). -/
noncomputable def minimizeLoop (E : Engine P G H F D) (nSigmaCut : ℚ)
    (doRankUpdate : Bool) : ℕ → LoopState P G F → Option (MinimizeResult × Assoc P)
  | 0, _ => none
  | fuel + 1, st =>
    match minimizeStep E nSigmaCut doRankUpdate st with
    | StepResult.done r a => some (r, a)
    | StepResult.next st' => minimizeLoop E nSigmaCut doRankUpdate fuel st'

/-- FitterBase::minimize: assignIndices, build derivatives and the Hessian,
factor (Failed on failure), then iterate. -/
noncomputable def minimize (E : Engine P G H F D) (nSigmaCut : ℚ)
    (doRankUpdate : Bool) (fuel : ℕ) (a0 : Assoc P) :
    Option (MinimizeResult × Assoc P) :=
  let aA := E.assignIndices a0
  match E.factorize (E.derivatives aA).2 with
  | none => some (MinimizeResult.Failed, aA)
  | some chol =>
    minimizeLoop E nSigmaCut doRankUpdate fuel
      ⟨aA, (E.derivatives aA).1, chol, computeChi2 E aA, 0, 0⟩

/-- The parameter state after this iteration's solve and offsetParams. -/
noncomputable def stepOffset (E : Engine P G H F D) (st : LoopState P G F) : Assoc P :=
  offsetAssoc E st.a (E.solve st.chol st.grad)

/-- The condition of the Chi2Increased break: the fresh chi2 exceeds the
previous iteration's and an outlier was removed in a prior iteration. -/
noncomputable def chi2IncCond (E : Engine P G H F D) (st : LoopState P G F) : Prop :=
  st.oldChi2 < computeChi2 E (stepOffset E st) ∧ st.totalMeas + st.totalRef ≠ 0

/-- The next-iteration state, when the iteration does not break. -/
noncomputable def nextState (E : Engine P G H F D) (nSigmaCut : ℚ) (doRankUpdate : Bool)
    (st : LoopState P G F) : Option (LoopState P G F) :=
  match minimizeStep E nSigmaCut doRankUpdate st with
  | StepResult.next st' => some st'
  | StepResult.done _ _ => none

/-- n iterations of nextState. -/
noncomputable def iterNext (E : Engine P G H F D) (nSigmaCut : ℚ) (doRankUpdate : Bool) :
    ℕ → LoopState P G F → Option (LoopState P G F)
  | 0, st => some st
  | n + 1, st => (nextState E nSigmaCut doRankUpdate st).bind
      (iterNext E nSigmaCut doRankUpdate n)

/-- The Associations state after this iteration's outlier removal (the rebuild
path refactors at this state). -/
noncomputable def removedState (E : Engine P G H F D) (st : LoopState P G F) (k : ℚ) :
    Assoc P :=
  removeRefOutliers
    (removeMeasOutliers (stepOffset E st) (findOutliersMs E (stepOffset E st) k))
    (findOutliersFs E (stepOffset E st) k)

/-- The loop state minimize enters its loop with, given the initial factor. -/
noncomputable def initLoopState (E : Engine P G H F D) (a0 : Assoc P) (chol : F) :
    LoopState P G F :=
  ⟨E.assignIndices a0, (E.derivatives (E.assignIndices a0)).1, chol,
    computeChi2 E (E.assignIndices a0), 0, 0⟩

/-! ### findOutliers: the identifiability protection -/

theorem bumpAffected_ge (ind : List ℕ) : ∀ (aff : ℕ → ℕ) (i : ℕ),
    aff i ≤ bumpAffected aff ind i := by
  induction ind with
  | nil => intro aff i; exact le_refl _
  | cons j rest ih =>
    intro aff i
    unfold bumpAffected
    rw [List.foldl_cons]
    refine le_trans ?_ (ih (Function.update aff j (aff j + 1)) i)
    by_cases hij : i = j
    · subst hij
      rw [Function.update_same]
      omega
    · rw [Function.update_noteq hij]

theorem bumpAffected_pos (ind : List ℕ) : ∀ (aff : ℕ → ℕ) (i : ℕ), i ∈ ind →
    bumpAffected aff ind i ≠ 0 := by
  induction ind with
  | nil => intro aff i hi; simp at hi
  | cons j rest ih =>
    intro aff i hi
    unfold bumpAffected
    rw [List.foldl_cons]
    rcases List.mem_cons.mp hi with rfl | hrest
    · have h1 : Function.update aff i (aff i + 1) i ≠ 0 := by
        rw [Function.update_same]
        omega
      have h2 := bumpAffected_ge rest (Function.update aff i (aff i + 1)) i
      unfold bumpAffected at h2
      intro h0
      rw [h0] at h2
      exact h1 (Nat.le_zero.mp h2)
    · exact ih (Function.update aff j (aff j + 1)) i hrest

theorem scanOutliers_sublist (E : Engine P G H F D) (a : Assoc P) (cut : ℝ) :
    ∀ (l : List Contribution) (aff : ℕ → ℕ),
      (scanOutliers E a cut l aff).Sublist l := by
  intro l
  induction l with
  | nil => intro aff; rw [scanOutliers]
  | cons c rest ih =>
    intro aff
    rw [scanOutliers]
    by_cases h1 : (c.chi2 : ℝ) < cut
    · rw [if_pos h1]
      exact List.nil_sublist _
    · rw [if_neg h1]
      rcases hp : protectiveIndices E a c with _ | ind
    
      · simp only [hp]
        exact (ih aff).cons c
      · simp only [hp]
        by_cases h2 : ind.any (fun i => aff i != 0)
        · rw [if_pos h2]
          exact (ih aff).cons c
        · rw [if_neg h2]
          exact (ih (bumpAffected aff ind)).cons₂ c

theorem scanOutliers_cut_le (E : Engine P G H F D) (a : Assoc P) (cut : ℝ) :
    ∀ (l : List Contribution) (aff : ℕ → ℕ) (c : Contribution),
      c ∈ scanOutliers E a cut l aff → cut ≤ (c.chi2 : ℝ) := by
  intro l
  induction l with
  | nil => intro aff c hc; rw [scanOutliers] at hc; simp at hc
  | cons c0 rest ih =>
    intro aff c hc
    rw [scanOutliers] at hc
    by_cases h1 : (c0.chi2 : ℝ) < cut
    · rw [if_pos h1] at hc
      simp at hc
    · rw [if_neg h1] at hc
      rcases hp : protectiveIndices E a c0 with _ | ind
      · simp only [hp] at hc
        exact ih aff c hc
      · simp only [hp] at hc
        by_cases h2 : ind.any (fun i => aff i != 0)
        · rw [if_pos h2] at hc
          exact ih aff c hc
        · rw [if_neg h2] at hc
          rcases List.mem_cons.mp hc with rfl | htail
          · exact le_of_not_lt h1
          · exact ih (bumpAffected aff ind) c htail

theorem scanOutliers_indices (E : Engine P G H F D) (a : Assoc P) (cut : ℝ) :
    ∀ (l : List Contribution) (aff : ℕ → ℕ) (c : Contribution),
      c ∈ scanOutliers E a cut l aff →
      ∃ ind, protectiveIndices E a c = some ind ∧ ∀ i ∈ ind, aff i = 0 := by
  intro l
  induction l with
  | nil => intro aff c hc; rw [scanOutliers] at hc; simp at hc
  | cons c0 rest ih =>
    intro aff c hc
    rw [scanOutliers] at hc
    by_cases h1 : (c0.chi2 : ℝ) < cut
    · rw [if_pos h1] at hc
      simp at hc
    · rw [if_neg h1] at hc
      rcases hp : protectiveIndices E a c0 with _ | ind
      · simp only [hp] at hc
        exact ih aff c hc
      · simp only [hp] at hc
        by_cases h2 : ind.any (fun i => aff i != 0)
        · rw [if_pos h2] at hc
          exact ih aff c hc
        · rw [if_neg h2] at hc
          rcases List.mem_cons.mp hc with rfl | htail
          · refine ⟨ind, hp, fun i hi => ?_⟩
            by_contra hne
            have : ind.any (fun i => aff i != 0) := by
              rw [List.any_eq_true]
              exact ⟨i, hi, by simpa using hne⟩
            exact h2 this
          · obtain ⟨ind', hp', hall⟩ := ih (bumpAffected aff ind) c htail
            refine ⟨ind', hp', fun i hi => ?_⟩
            have hb := hall i hi
            have hge := bumpAffected_ge ind aff i
            omega

theorem scanOutliers_pairwise (E : Engine P G H F D) (a : Assoc P) (cut : ℝ) :
    ∀ (l : List Contribution) (aff : ℕ → ℕ),
      List.Pairwise
        (fun c d => ∀ i ∈ (protectiveIndices E a c).getD [],
          i ∉ (protectiveIndices E a d).getD [])
        (scanOutliers E a cut l aff) := by
  intro l
  induction l with
  | nil => intro aff; rw [scanOutliers]; exact List.Pairwise.nil
  | cons c0 rest ih =>
    intro aff
    rw [scanOutliers]
    by_cases h1 : (c0.chi2 : ℝ) < cut
    · rw [if_pos h1]
      exact List.Pairwise.nil
    · rw [if_neg h1]
      rcases hp : protectiveIndices E a c0 with _ | ind
      · simp only [hp]
        exact ih aff
      · simp only [hp]
        by_cases h2 : ind.any (fun i => aff i != 0)
        · rw [if_pos h2]
          exact ih aff
        · rw [if_neg h2]
          refine List.Pairwise.cons ?_ (ih (bumpAffected aff ind))
          intro d hd i hic hid
          obtain ⟨ind', hp', hall⟩ := scanOutliers_indices E a cut rest _ d hd
          rw [hp'] at hid
          simp only [Option.getD_some] at hid
          rw [hp] at hic
          simp only [Option.getD_some] at hic
          exact bumpAffected_pos ind aff i hic (hall i hid)

theorem pairwise_countP_le_one {α : Type} {pind : α → List ℕ} :
    ∀ {l : List α},
      List.Pairwise (fun c d => ∀ i ∈ pind c, i ∉ pind d) l →
      ∀ i : ℕ, l.countP (fun c => decide (i ∈ pind c)) ≤ 1 := by
  intro l
  induction l with
  | nil => intro _ i; simp
  | cons c rest ih =>
    intro h i
    rw [List.countP_cons]
    rcases List.pairwise_cons.mp h with ⟨hc, hrest⟩
    by_cases hi : i ∈ pind c
    · have hz : rest.countP (fun d => decide (i ∈ pind d)) = 0 := by
        rw [List.countP_eq_zero]
        intro d hd
        simpa using hc d hd i hi
      simp [hi, hz]
    · have hrec := ih hrest i
      have hz : decide (i ∈ pind c) = false := by simp [hi]
      simpa [hz] using hrec

theorem findOutliersRec_eq (E : Engine P G H F D) (a : Assoc P) (k : ℚ) :
    findOutliersRec E a k =
      if (chi2ListOf E a).length = 0 then []
      else
        scanOutliers E a (cutOf k ((sortChi2 (chi2ListOf E a)).map Contribution.chi2))
          ((sortChi2 (chi2ListOf E a)).reverse) (fun _ => 0) := rfl

/-- C2: in a single findOutliers call the recorded outliers' parameter-index
sets are pairwise disjoint, every parameter index belongs to at most one
recorded contribution, and a contribution sharing a parameter with an
already-recorded stronger outlier is kept: the scan drops it and continues
with the affected-parameter marks unchanged. -/
theorem c2_outlier_param_disjoint (E : Engine P G H F D) (a : Assoc P) (k : ℚ) :
    List.Pairwise
        (fun c d => ∀ i ∈ (protectiveIndices E a c).getD [],
          i ∉ (protectiveIndices E a d).getD [])
        (findOutliersRec E a k) ∧
    (∀ i : ℕ,
        (findOutliersRec E a k).countP
          (fun c => decide (i ∈ (protectiveIndices E a c).getD [])) ≤ 1) ∧
    (∀ (cut : ℝ) (c : Contribution) (rest : List Contribution) (aff : ℕ → ℕ)
        (ind : List ℕ),
        ¬ ((c.chi2 : ℝ) < cut) → protectiveIndices E a c = some ind →
        (∃ i ∈ ind, aff i ≠ 0) →
        scanOutliers E a cut (c :: rest) aff = scanOutliers E a cut rest aff) := by
  have hpw : List.Pairwise
      (fun c d => ∀ i ∈ (protectiveIndices E a c).getD [],
        i ∉ (protectiveIndices E a d).getD [])
      (findOutliersRec E a k) := by
    rw [findOutliersRec_eq]
    by_cases h : (chi2ListOf E a).length = 0
    · rw [if_pos h]
      exact List.Pairwise.nil
    · rw [if_neg h]
      exact scanOutliers_pairwise E a _ _ _
  refine ⟨hpw, fun i => pairwise_countP_le_one hpw i, ?_⟩
  intro cut c rest aff ind h1 hp hex
  rw [scanOutliers, if_neg h1]
  simp only [hp]
  rw [if_pos ?_]
  rw [List.any_eq_true]
  obtain ⟨i, hi, hne⟩ := hex
  exact ⟨i, hi, by simpa using hne⟩

/-- C3: a reference contribution whose FittedStar has measurement count 0 is
never recorded as an outlier, a measurement contribution whose FittedStar has
exactly one measurement and no reference star is never recorded, and in both
protective cases the scan skips the contribution and continues. -/
theorem c3_protected_never_outliers (E : Engine P G H F D) (a : Assoc P) (k : ℚ) :
    (∀ c ∈ findOutliersRec E a k, ∀ fi, c.star = Sum.inr fi →
        (a.fitted.getD fi default).count ≠ 0) ∧
    (∀ c ∈ findOutliersRec E a k, ∀ mi, c.star = Sum.inl mi →
        ¬ ((a.fitted.getD ((a.meas.getD mi default).fittedIndex) default).count = 1 ∧
          (a.fitted.getD ((a.meas.getD mi default).fittedIndex) default).hasRef = false)) ∧
    (∀ (cut : ℝ) (c : Contribution) (rest : List Contribution) (aff : ℕ → ℕ),
        protectiveIndices E a c = none →
        scanOutliers E a cut (c :: rest) aff =
          if (c.chi2 : ℝ) < cut then [] else scanOutliers E a cut rest aff) := by
  have hsome : ∀ c ∈ findOutliersRec E a k, ∃ ind, protectiveIndices E a c = some ind := by
    intro c hc
    rw [findOutliersRec_eq] at hc
    by_cases h : (chi2ListOf E a).length = 0
    · rw [if_pos h] at hc
      simp at hc
    · rw [if_neg h] at hc
      obtain ⟨ind, hp, _⟩ := scanOutliers_indices E a _ _ _ c hc
      exact ⟨ind, hp⟩
  refine ⟨?_, ?_, ?_⟩
  · intro c hc fi hstar hzero
    obtain ⟨ind, hp⟩ := hsome c hc
    rw [protectiveIndices, hstar] at hp
    dsimp only at hp
    rw [if_pos hzero] at hp
    exact Option.noConfusion hp
  · intro c hc mi hstar hprot
    obtain ⟨ind, hp⟩ := hsome c hc
    rw [protectiveIndices, hstar] at hp
    dsimp only at hp
    rw [if_pos hprot] at hp
    exact Option.noConfusion hp
  · intro cut c rest aff hp
    rw [scanOutliers]
    by_cases h1 : (c.chi2 : ℝ) < cut
    · rw [if_pos h1, if_pos h1]
    · rw [if_neg h1, if_neg h1]
      simp only [hp]

/-- C6 (amended): the threshold is cut = mean + nSigmaCut·sigma of the chi2
list, contributions are examined in descending chi2 order (the reversed
ascending sort, of which the recorded outliers form a sublist), and every
recorded outlier has chi2 ≥ cut — a contribution with chi2 strictly below the
cut is never recorded, but one with chi2 exactly equal to the cut may be
(the loop breaks only on chi2 < cut). -/
theorem c6_cut_threshold (E : Engine P G H F D) (a : Assoc P) (k : ℚ) :
    (∀ c ∈ findOutliersRec E a k,
        cutOf k ((sortChi2 (chi2ListOf E a)).map Contribution.chi2) ≤ (c.chi2 : ℝ)) ∧
    List.Pairwise (fun c d => cle d c) ((sortChi2 (chi2ListOf E a)).reverse) ∧
    (findOutliersRec E a k).Sublist ((sortChi2 (chi2ListOf E a)).reverse) := by
  refine ⟨?_, ?_, ?_⟩
  · intro c hc
    rw [findOutliersRec_eq] at hc
    by_cases h : (chi2ListOf E a).length = 0
    · rw [if_pos h] at hc
      simp at hc
    · rw [if_neg h] at hc
      exact scanOutliers_cut_le E a _ _ _ c hc
  · rw [List.pairwise_reverse]
    exact List.sorted_insertionSort cle (chi2ListOf E a)
  · rw [findOutliersRec_eq]
    by_cases h : (chi2ListOf E a).length = 0
    · rw [if_pos h]
      exact List.nil_sublist _
    · rw [if_neg h]
      exact scanOutliers_sublist E a _ _ _

/-- A concrete single-contribution measurement term with chi2 = 5. -/
def exC : Contribution := ⟨Sum.inl 0, 5⟩

/-- A concrete engine producing exactly that contribution. -/
def exEngine1 : Engine ℕ ℕ ℕ ℕ ℕ :=
  { assignIndices := id
    accumulateMeas := fun _ => [exC]
    accumulateRef := fun _ => []
    indicesOfMeas := fun _ m => [m]
    derivatives := fun _ => (0, 0)
    factorize := fun _ => some 0
    solve := fun _ _ => 0
    offsetParams := fun p _ => p
    outlierGrad := fun _ _ _ => 0
    negGrad := id
    downdate := fun f _ _ _ => f }

/-- A concrete Associations state: one valid measurement owned by a fitted
star with two measurements. -/
def exAssoc : Assoc ℕ := ⟨[⟨true, 0⟩], [⟨2, true, 0⟩], 0⟩

theorem exC_cut : cutOf 3 [(5 : ℚ)] = (5 : ℝ) := by
  have hv : varOf [(5 : ℚ)] = 0 := by
    norm_num [varOf, meanOf]
  have hm : meanOf [(5 : ℚ)] = 5 := by
    norm_num [meanOf]
  rw [cutOf, sigmaOf, hv, hm]
  norm_num [Real.sqrt_zero]

theorem exEngine1_rec : findOutliersRec exEngine1 exAssoc 3 = [exC] := by
  rw [findOutliersRec_eq]
  rw [if_neg (by norm_num [chi2ListOf, exEngine1])]
  have h1 : chi2ListOf exEngine1 exAssoc = [exC] := rfl
  have h2 : sortChi2 [exC] = [exC] := rfl
  have h3 : List.map Contribution.chi2 [exC] = [(5 : ℚ)] := rfl
  rw [h1, h2, h3, exC_cut, List.reverse_singleton]
  rw [scanOutliers]
  rw [if_neg (show ¬ ((exC.chi2 : ℝ) < 5) by norm_num [exC])]
  have hp : protectiveIndices exEngine1 exAssoc exC = some [0] := by decide
  simp only [hp]
  rw [if_neg (by decide)]
  rw [scanOutliers]

/-- C6 counterexample: a recorded outlier whose chi2 is not strictly greater
than the cut — with a single contribution the cut equals its chi2 (sigma is
zero), the break condition chi2 < cut is false, and the contribution is
recorded. -/
theorem c6_counterexample :
    ∃ c ∈ findOutliersRec exEngine1 exAssoc 3,
      ¬ (cutOf 3 ((sortChi2 (chi2ListOf exEngine1 exAssoc)).map Contribution.chi2)
          < (c.chi2 : ℝ)) := by
  refine ⟨exC, by rw [exEngine1_rec]; exact List.mem_singleton_self _, ?_⟩
  have h1 : chi2ListOf exEngine1 exAssoc = [exC] := rfl
  have h2 : sortChi2 [exC] = [exC] := rfl
  have h3 : List.map Contribution.chi2 [exC] = [(5 : ℚ)] := rfl
  rw [h1, h2, h3, exC_cut]
  norm_num [exC]

/-! ### minimize: the Chi2Increased break -/

theorem minimizeStep_eq (E : Engine P G H F D) (k : ℚ) (b : Bool)
    (st : LoopState P G F) :
    minimizeStep E k b st =
      if st.oldChi2 < computeChi2 E (stepOffset E st) ∧ st.totalMeas + st.totalRef ≠ 0 then
        StepResult.done MinimizeResult.Chi2Increased (stepOffset E st)
      else if k = 0 then StepResult.done MinimizeResult.Converged (stepOffset E st)
      else if findOutliersCount E (stepOffset E st) k = 0 then
        StepResult.done MinimizeResult.Converged (stepOffset E st)
      else if b then
        StepResult.next ⟨removedState E st k,
          E.negGrad (E.outlierGrad (stepOffset E st) (findOutliersMs E (stepOffset E st) k)
            (findOutliersFs E (stepOffset E st) k)),
          E.downdate st.chol (stepOffset E st) (findOutliersMs E (stepOffset E st) k)
            (findOutliersFs E (stepOffset E st) k),
          computeChi2 E (stepOffset E st),
          st.totalMeas + (findOutliersMs E (stepOffset E st) k).length,
          st.totalRef + (findOutliersFs E (stepOffset E st) k).length⟩
      else
        match E.factorize (E.derivatives (removedState E st k)).2 with
        | none => StepResult.done MinimizeResult.Failed (removedState E st k)
        | some chol2 => StepResult.next ⟨removedState E st k,
            (E.derivatives (removedState E st k)).1, chol2,
            computeChi2 E (stepOffset E st),
            st.totalMeas + (findOutliersMs E (stepOffset E st) k).length,
            st.totalRef + (findOutliersFs E (stepOffset E st) k).length⟩ := rfl

theorem minimizeStep_chi2Inc_iff (E : Engine P G H F D) (k : ℚ) (b : Bool)
    (st : LoopState P G F) (s : Assoc P) :
    minimizeStep E k b st = StepResult.done MinimizeResult.Chi2Increased s ↔
      chi2IncCond E st ∧ s = stepOffset E st := by
  rw [minimizeStep_eq]
  by_cases h1 : st.oldChi2 < computeChi2 E (stepOffset E st) ∧ st.totalMeas + st.totalRef ≠ 0
  · rw [if_pos h1]
    constructor
    · intro he
      injection he with h2 h3
      exact ⟨h1, h3.symm⟩
    · rintro ⟨_, hs⟩
      rw [hs]
  · rw [if_neg h1]
    constructor
    · intro he
      exfalso
      by_cases h2 : k = 0
      · rw [if_pos h2] at he
        injection he with h3 _
        exact MinimizeResult.noConfusion h3
      · rw [if_neg h2] at he
        by_cases h3 : findOutliersCount E (stepOffset E st) k = 0
        · rw [if_pos h3] at he
          injection he with h4 _
          exact MinimizeResult.noConfusion h4
        · rw [if_neg h3] at he
          by_cases h4 : b
          · rw [if_pos h4] at he
            exact StepResult.noConfusion he
          · rw [if_neg h4] at he
            rcases hf : E.factorize (E.derivatives (removedState E st k)).2 with _ | chol2
            · rw [hf] at he
              injection he with h5 _
              exact MinimizeResult.noConfusion h5
            · rw [hf] at he
              exact StepResult.noConfusion he
    · rintro ⟨hc, _⟩
      exact absurd hc h1

theorem nextState_of_done (E : Engine P G H F D) (k : ℚ) (b : Bool)
    (st : LoopState P G F) (r : MinimizeResult) (a : Assoc P)
    (h : minimizeStep E k b st = StepResult.done r a) :
    nextState E k b st = none := by
  rw [nextState, h]

theorem nextState_of_next (E : Engine P G H F D) (k : ℚ) (b : Bool)
    (st st' : LoopState P G F)
    (h : minimizeStep E k b st = StepResult.next st') :
    nextState E k b st = some st' := by
  rw [nextState, h]

theorem minimizeLoop_chi2Inc_iff (E : Engine P G H F D) (k : ℚ) (b : Bool) :
    ∀ (fuel : ℕ) (st : LoopState P G F) (aF : Assoc P),
      minimizeLoop E k b fuel st = some (MinimizeResult.Chi2Increased, aF) ↔
      ∃ n, n < fuel ∧ ∃ st1, iterNext E k b n st = some st1 ∧
        chi2IncCond E st1 ∧ aF = stepOffset E st1 := by
  intro fuel
  induction fuel with
  | zero =>
    intro st aF
    rw [minimizeLoop]
    simp
  | succ fuel ih =>
    intro st aF
    rw [minimizeLoop]
    rcases hstep : minimizeStep E k b st with ⟨r, a⟩ | st'
    · dsimp only
      constructor
      · intro h
        simp only [Option.some.injEq, Prod.mk.injEq] at h
        refine ⟨0, Nat.succ_pos _, st, rfl, ?_⟩
        have hd : minimizeStep E k b st = StepResult.done MinimizeResult.Chi2Increased aF := by
          rw [hstep, h.1, h.2]
        have h5 := (minimizeStep_chi2Inc_iff E k b st aF).mp hd
        exact h5
      · rintro ⟨n, hn, st1, hiter, hcond, haF⟩
        cases n with
        | zero =>
          rw [iterNext] at hiter
          have hst : st = st1 := by injection hiter
          subst hst
          have hd := (minimizeStep_chi2Inc_iff E k b st aF).mpr ⟨hcond, haF⟩
          rw [hstep] at hd
          injection hd with h1 h2
          rw [h1, h2]
        | succ m =>
          exfalso
          rw [iterNext, nextState_of_done E k b st r a hstep] at hiter
          simp at hiter
    · dsimp only
      have hsome := nextState_of_next E k b st st' hstep
      constructor
      · intro h
        obtain ⟨n, hn, st1, hiter, hcond, haF⟩ := (ih st' aF).mp h
        refine ⟨n + 1, Nat.succ_lt_succ hn, st1, ?_, hcond, haF⟩
        rw [iterNext, hsome]
        simpa using hiter
      · rintro ⟨n, hn, st1, hiter, hcond, haF⟩
        cases n with
        | zero =>
          rw [iterNext] at hiter
          have hst : st = st1 := by injection hiter
          subst hst
          have hd := (minimizeStep_chi2Inc_iff E k b st aF).mpr ⟨hcond, haF⟩
          rw [hstep] at hd
          exact StepResult.noConfusion hd
        | succ m =>
          rw [iterNext, hsome] at hiter
          exact (ih st' aF).mpr ⟨m, Nat.lt_of_succ_lt_succ hn, st1, by simpa using hiter,
            hcond, haF⟩

/-- C4: minimize returns Chi2Increased exactly when the initial factorization
succeeds and some iteration, reached from the initial loop state, sees its
freshly offset parameters produce a chi2 above the previous iteration's while
at least one outlier was removed earlier in the call; the Associations state
returned is then the already-offset state of that iteration — no rollback. -/
theorem c4_chi2increased_iff (E : Engine P G H F D) (k : ℚ) (b : Bool) (fuel : ℕ)
    (a0 aF : Assoc P) :
    minimize E k b fuel a0 = some (MinimizeResult.Chi2Increased, aF) ↔
    ∃ chol, E.factorize (E.derivatives (E.assignIndices a0)).2 = some chol ∧
      ∃ n, n < fuel ∧ ∃ st1, iterNext E k b n (initLoopState E a0 chol) = some st1 ∧
        chi2IncCond E st1 ∧ aF = stepOffset E st1 := by
  rcases hf : E.factorize (E.derivatives (E.assignIndices a0)).2 with _ | chol
  · constructor
    · intro h
      rw [minimize, hf] at h
      dsimp only at h
      simp only [Option.some.injEq, Prod.mk.injEq] at h
      exact MinimizeResult.noConfusion h.1
    · rintro ⟨chol, hc, _⟩
      exact Option.noConfusion hc
  · have hm : minimize E k b fuel a0 = minimizeLoop E k b fuel (initLoopState E a0 chol) := by
      rw [minimize, hf]
      rfl
    rw [hm, minimizeLoop_chi2Inc_iff E k b fuel (initLoopState E a0 chol) aF]
    constructor
    · intro h
      exact ⟨chol, rfl, h⟩
    · rintro ⟨chol2, hc2, h⟩
      have hcc : chol = chol2 := by injection hc2
      rw [hcc]
      exact h

/-- C8: a reported factorization failure makes minimize return Failed at once:
an initial failure returns Failed with the Associations still in their
assignIndices state (no offsetParams was run), a rebuild-path refactorization
failure ends the iteration with Failed at the post-removal state, and the loop
surfaces such a step outcome unchanged. -/
theorem c8_factorization_failure (E : Engine P G H F D) (k : ℚ) (b : Bool) (fuel : ℕ) :
    (∀ a0 : Assoc P, E.factorize (E.derivatives (E.assignIndices a0)).2 = none →
        minimize E k b fuel a0 = some (MinimizeResult.Failed, E.assignIndices a0)) ∧
    (∀ st : LoopState P G F,
        ¬ (st.oldChi2 < computeChi2 E (stepOffset E st) ∧ st.totalMeas + st.totalRef ≠ 0) →
        k ≠ 0 → findOutliersCount E (stepOffset E st) k ≠ 0 →
        E.factorize (E.derivatives (removedState E st k)).2 = none →
        minimizeStep E k false st =
          StepResult.done MinimizeResult.Failed (removedState E st k)) ∧
    (∀ (st : LoopState P G F) (a : Assoc P),
        minimizeStep E k b st = StepResult.done MinimizeResult.Failed a →
        minimizeLoop E k b (fuel + 1) st = some (MinimizeResult.Failed, a)) := by
  refine ⟨?_, ?_, ?_⟩
  · intro a0 hf
    rw [minimize, hf]
  · intro st h1 h2 h3 hf
    rw [minimizeStep_eq]
    rw [if_neg h1, if_neg h2, if_neg h3]
    rw [if_neg (show ¬ (false = true) by simp)]
    rw [hf]
  · intro st a h
    rw [minimizeLoop, h]

/-! ### the measurement-count invariant -/

theorem getD_set_self {α : Type} (v d : α) : ∀ (l : List α) (m : ℕ), m < l.length →
    (l.set m v).getD m d = v := by
  intro l
  induction l with
  | nil => intro m hm; simp at hm
  | cons a t ih =>
    intro m hm
    cases m with
    | zero => rfl
    | succ n => exact ih n (by simpa using hm)

theorem getD_set_ne {α : Type} (v d : α) : ∀ (l : List α) (m n : ℕ), m ≠ n →
    (l.set m v).getD n d = l.getD n d := by
  intro l
  induction l with
  | nil => intro m n _; rfl
  | cons a t ih =>
    intro m n h
    cases m with
    | zero =>
      cases n with
      | zero => exact absurd rfl h
      | succ n2 => rfl
    | succ m2 =>
      cases n with
      | zero => rfl
      | succ n2 => exact ih m2 n2 (by omega)

theorem getD_of_length_le {α : Type} (d : α) : ∀ (l : List α) (n : ℕ), l.length ≤ n →
    l.getD n d = d := by
  intro l
  induction l with
  | nil => intro n _; rfl
  | cons a t ih =>
    intro n h
    cases n with
    | zero => simp at h
    | succ n2 => exact ih n2 (by simpa using h)

theorem countP_set_aux {α : Type} (p : α → Bool) (d : α) : ∀ (l : List α) (m : ℕ) (v : α),
    m < l.length →
    (l.set m v).countP p + (if p (l.getD m d) = true then 1 else 0)
      = l.countP p + (if p v = true then 1 else 0) := by
  intro l
  induction l with
  | nil => intro m v hm; simp at hm
  | cons a t ih =>
    intro m v hm
    cases m with
    | zero =>
      show List.countP p (v :: t) + (if p a = true then 1 else 0)
        = List.countP p (a :: t) + (if p v = true then 1 else 0)
      rw [List.countP_cons, List.countP_cons]
      omega
    | succ n =>
      show List.countP p (a :: t.set n v) + (if p (t.getD n d) = true then 1 else 0)
        = List.countP p (a :: t) + (if p v = true then 1 else 0)
      rw [List.countP_cons, List.countP_cons]
      have h2 := ih n v (by simpa using hm)
      omega

/-- Does a measured star count toward fitted star fi: it is valid and owned
by fi. -/
def measCountsFor (fi : ℕ) (mr : MeasRec) : Bool := mr.valid && mr.fittedIndex == fi

/-- The invariant of C5: every FittedStar's measurementCount equals the number
of valid measured stars pointing at it. -/
def countInvariant (a : Assoc P) : Prop :=
  ∀ fi : ℕ, (a.fitted.getD fi default).count = (a.meas.countP (measCountsFor fi) : ℤ)

theorem removeOneMeas_spec (a : Assoc P) (m : ℕ)
    (hm : m < a.meas.length) (hv : (a.meas.getD m default).valid = true)
    (hinv : countInvariant a) :
    countInvariant (removeOneMeas a m) ∧
    (removeOneMeas a m).meas.length = a.meas.length ∧
    ((removeOneMeas a m).meas.getD m default).valid = false ∧
    (∀ n, n ≠ m → (removeOneMeas a m).meas.getD n default = a.meas.getD n default) ∧
    ((removeOneMeas a m).fitted.getD (a.meas.getD m default).fittedIndex default).count
      = (a.fitted.getD (a.meas.getD m default).fittedIndex default).count - 1 ∧
    (∀ fi, fi ≠ (a.meas.getD m default).fittedIndex →
        (removeOneMeas a m).fitted.getD fi default = a.fitted.getD fi default) ∧
    (removeOneMeas a m).params = a.params := by
  have hrm : (removeOneMeas a m).meas
      = a.meas.set m ⟨false, (a.meas.getD m default).fittedIndex⟩ := rfl
  have hrf : (removeOneMeas a m).fitted
      = a.fitted.set (a.meas.getD m default).fittedIndex
          ⟨(a.fitted.getD (a.meas.getD m default).fittedIndex default).count - 1,
           (a.fitted.getD (a.meas.getD m default).fittedIndex default).hasRef,
           (a.fitted.getD (a.meas.getD m default).fittedIndex default).indexInMatrix⟩ := rfl
  have hmem : a.meas.getD m default ∈ a.meas := by
    rw [List.getD_eq_getElem a.meas default hm]
    exact a.meas.getElem_mem hm
  have hpm : measCountsFor (a.meas.getD m default).fittedIndex (a.meas.getD m default)
      = true := by
    rw [measCountsFor, hv, beq_self_eq_true]
    rfl
  have hpos : 0 < a.meas.countP (measCountsFor (a.meas.getD m default).fittedIndex) :=
    List.countP_pos_iff.mpr ⟨_, hmem, hpm⟩
  have hlt : (a.meas.getD m default).fittedIndex < a.fitted.length := by
    by_contra hge
    push_neg at hge
    have h0 := hinv (a.meas.getD m default).fittedIndex
    rw [getD_of_length_le default a.fitted _ hge] at h0
    have h0i : (0 : ℤ)
        = (a.meas.countP (measCountsFor (a.meas.getD m default).fittedIndex) : ℤ) := h0
    omega
  refine ⟨?_, ?_, ?_, ?_, ?_, ?_, rfl⟩
  · intro fi
    have hset := countP_set_aux (measCountsFor fi) default
      a.meas m ⟨false, (a.meas.getD m default).fittedIndex⟩ hm
    have hmr0 : measCountsFor fi ⟨false, (a.meas.getD m default).fittedIndex⟩ = false := rfl
    rw [hmr0] at hset
    rw [show (if (false = true) then 1 else 0) = 0 from rfl] at hset
    by_cases hfi : fi = (a.meas.getD m default).fittedIndex
    · subst hfi
      rw [hrm, hrf, getD_set_self _ default a.fitted _ hlt]
      rw [hpm] at hset
      rw [show (if (true = true) then 1 else 0) = 1 from rfl] at hset
      have hc := hinv (a.meas.getD m default).fittedIndex
      have hposfi := hpos
      dsimp only
      omega
    · rw [hrm, hrf, getD_set_ne _ default a.fitted _ _ (fun h => hfi h.symm)]
      have hpfalse : measCountsFor fi (a.meas.getD m default) = false := by
        rw [measCountsFor, hv, Bool.true_and]
        exact beq_eq_false_iff_ne.mpr (fun h => hfi h.symm)
      rw [hpfalse] at hset
      rw [show (if (false = true) then 1 else 0) = 0 from rfl] at hset
      have hc := hinv fi
      omega
  · rw [hrm, List.length_set]
  · rw [hrm, getD_set_self _ default a.meas m hm]
  · intro n hn
    rw [hrm, getD_set_ne _ default a.meas m n (fun h => hn h.symm)]
  · rw [hrf, getD_set_self _ default a.fitted _ hlt]
  · intro fi hfi
    rw [hrf, getD_set_ne _ default a.fitted _ fi (fun h => hfi h.symm)]

theorem setHasRefFalse_count (l : List FittedRec) (f fi : ℕ) :
    ((l.set f { l.getD f default with hasRef := false }).getD fi default).count
      = (l.getD fi default).count := by
  by_cases hfi : f = fi
  · subst hfi
    by_cases hlen : f < l.length
    · rw [getD_set_self _ default l f hlen]
    · rw [List.set_eq_of_length_le (by omega)]
  · rw [getD_set_ne _ default l f fi hfi]

theorem removeRefOutliers_fields : ∀ (fs : List ℕ) (a : Assoc P),
    (removeRefOutliers a fs).meas = a.meas ∧
    (∀ fi, ((removeRefOutliers a fs).fitted.getD fi default).count
        = (a.fitted.getD fi default).count) ∧
    (removeRefOutliers a fs).params = a.params := by
  intro fs
  induction fs with
  | nil => intro a; exact ⟨rfl, fun _ => rfl, rfl⟩
  | cons f t ih =>
    intro a
    have hstep : removeRefOutliers a (f :: t) =
        removeRefOutliers
          { a with fitted := a.fitted.set f { a.fitted.getD f default with hasRef := false } }
          t := rfl
    rw [hstep]
    obtain ⟨h1, h2, h3⟩ :=
      ih { a with fitted := a.fitted.set f { a.fitted.getD f default with hasRef := false } }
    refine ⟨h1, ?_, h3⟩
    intro fi
    rw [h2 fi]
    exact setHasRefFalse_count a.fitted f fi

theorem removeRefOutliers_inv (a : Assoc P) (fs : List ℕ) (hinv : countInvariant a) :
    countInvariant (removeRefOutliers a fs) := by
  intro fi
  obtain ⟨h1, h2, _⟩ := removeRefOutliers_fields fs a
  rw [h2 fi, h1]
  exact hinv fi

theorem removeMeasOutliers_inv : ∀ (ms : List ℕ) (a : Assoc P),
    countInvariant a →
    (∀ m ∈ ms, m < a.meas.length ∧ (a.meas.getD m default).valid = true) →
    ms.Nodup →
    countInvariant (removeMeasOutliers a ms) ∧
    (removeMeasOutliers a ms).meas.length = a.meas.length := by
  intro ms
  induction ms with
  | nil => intro a hinv _ _; exact ⟨hinv, rfl⟩
  | cons m t ih =>
    intro a hinv hco hnd
    have hm := hco m (List.mem_cons_self m t)
    obtain ⟨hinv1, hlen1, hval1, hoth1, _, _, _⟩ := removeOneMeas_spec a m hm.1 hm.2 hinv
    have hstep : removeMeasOutliers a (m :: t) = removeMeasOutliers (removeOneMeas a m) t := rfl
    rw [hstep]
    rcases List.nodup_cons.mp hnd with ⟨hmt, hndt⟩
    have hco1 : ∀ n ∈ t, n < (removeOneMeas a m).meas.length ∧
        ((removeOneMeas a m).meas.getD n default).valid = true := by
      intro n hn
      have hne : n ≠ m := fun he => hmt (he ▸ hn)
      rw [hlen1, hoth1 n hne]
      exact hco n (List.mem_cons_of_mem m hn)
    obtain ⟨hi2, hl2⟩ := ih (removeOneMeas a m) hinv1 hco1 hndt
    exact ⟨hi2, hl2.trans hlen1⟩

theorem findOutliersRec_sublist (E : Engine P G H F D) (a : Assoc P) (k : ℚ) :
    (findOutliersRec E a k).Sublist ((sortChi2 (chi2ListOf E a)).reverse) := by
  rw [findOutliersRec_eq]
  by_cases h : (chi2ListOf E a).length = 0
  · rw [if_pos h]
    exact List.nil_sublist _
  · rw [if_neg h]
    exact scanOutliers_sublist E a _ _ _

theorem findOutliersMs_conditions (E : Engine P G H F D) (a : Assoc P) (k : ℚ)
    (Hacc : ∀ mi ∈ (chi2ListOf E a).filterMap measStarOf,
      mi < a.meas.length ∧ (a.meas.getD mi default).valid = true)
    (Hnodup : ((chi2ListOf E a).filterMap measStarOf).Nodup) :
    (∀ mi ∈ findOutliersMs E a k,
      mi < a.meas.length ∧ (a.meas.getD mi default).valid = true) ∧
    (findOutliersMs E a k).Nodup := by
  have hsub : (findOutliersMs E a k).Sublist
      (((sortChi2 (chi2ListOf E a)).reverse).filterMap measStarOf) :=
    (findOutliersRec_sublist E a k).filterMap measStarOf
  have hperm : (((sortChi2 (chi2ListOf E a)).reverse).filterMap measStarOf).Perm
      ((chi2ListOf E a).filterMap measStarOf) :=
    ((sortChi2 (chi2ListOf E a)).reverse_perm.trans
      (List.perm_insertionSort cle (chi2ListOf E a))).filterMap measStarOf
  constructor
  · intro mi hmi
    exact Hacc mi (hperm.mem_iff.mp (hsub.mem hmi))
  · exact List.Nodup.sublist hsub (hperm.symm.nodup Hnodup)

theorem minimizeStep_inv (E : Engine P G H F D) (k : ℚ) (b : Bool)
    (Hacc : ∀ (a : Assoc P), ∀ mi ∈ (chi2ListOf E a).filterMap measStarOf,
      mi < a.meas.length ∧ (a.meas.getD mi default).valid = true)
    (Hnodup : ∀ a : Assoc P, ((chi2ListOf E a).filterMap measStarOf).Nodup)
    (st : LoopState P G F) (hinv : countInvariant st.a) :
    (∀ r aF, minimizeStep E k b st = StepResult.done r aF → countInvariant aF) ∧
    (∀ st', minimizeStep E k b st = StepResult.next st' → countInvariant st'.a) := by
  have hoff : countInvariant (stepOffset E st) := hinv
  have hcond := findOutliersMs_conditions E (stepOffset E st) k
    (Hacc (stepOffset E st)) (Hnodup (stepOffset E st))
  have hrem : countInvariant (removedState E st k) := by
    obtain ⟨hi1, _⟩ := removeMeasOutliers_inv (findOutliersMs E (stepOffset E st) k)
      (stepOffset E st) hoff hcond.1 hcond.2
    exact removeRefOutliers_inv _ _ hi1
  constructor
  · intro r aF hd
    rw [minimizeStep_eq] at hd
    by_cases h1 : st.oldChi2 < computeChi2 E (stepOffset E st) ∧ st.totalMeas + st.totalRef ≠ 0
    · rw [if_pos h1] at hd
      injection hd with hr ha
      rw [← ha]
      exact hoff
    · rw [if_neg h1] at hd
      by_cases h2 : k = 0
      · rw [if_pos h2] at hd
        injection hd with hr ha
        rw [← ha]
        exact hoff
      · rw [if_neg h2] at hd
        by_cases h3 : findOutliersCount E (stepOffset E st) k = 0
        · rw [if_pos h3] at hd
          injection hd with hr ha
          rw [← ha]
          exact hoff
        · rw [if_neg h3] at hd
          by_cases h4 : b = true
          · rw [if_pos h4] at hd
            exact StepResult.noConfusion hd
          · rw [if_neg h4] at hd
            rcases hf : E.factorize (E.derivatives (removedState E st k)).2 with _ | chol2
            · rw [hf] at hd
              dsimp only at hd
              injection hd with hr ha
              rw [← ha]
              exact hrem
            · rw [hf] at hd
              dsimp only at hd
              exact StepResult.noConfusion hd
  · intro st' hn
    rw [minimizeStep_eq] at hn
    by_cases h1 : st.oldChi2 < computeChi2 E (stepOffset E st) ∧ st.totalMeas + st.totalRef ≠ 0
    · rw [if_pos h1] at hn
      exact StepResult.noConfusion hn
    · rw [if_neg h1] at hn
      by_cases h2 : k = 0
      · rw [if_pos h2] at hn
        exact StepResult.noConfusion hn
      · rw [if_neg h2] at hn
        by_cases h3 : findOutliersCount E (stepOffset E st) k = 0
        · rw [if_pos h3] at hn
          exact StepResult.noConfusion hn
        · rw [if_neg h3] at hn
          by_cases h4 : b = true
          · rw [if_pos h4] at hn
            injection hn with h
            rw [← h]
            exact hrem
          · rw [if_neg h4] at hn
            rcases hf : E.factorize (E.derivatives (removedState E st k)).2 with _ | chol2
            · rw [hf] at hn
              dsimp only at hn
              exact StepResult.noConfusion hn
            · rw [hf] at hn
              dsimp only at hn
              injection hn with h
              rw [← h]
              exact hrem

theorem minimizeLoop_inv (E : Engine P G H F D) (k : ℚ) (b : Bool)
    (Hacc : ∀ (a : Assoc P), ∀ mi ∈ (chi2ListOf E a).filterMap measStarOf,
      mi < a.meas.length ∧ (a.meas.getD mi default).valid = true)
    (Hnodup : ∀ a : Assoc P, ((chi2ListOf E a).filterMap measStarOf).Nodup) :
    ∀ (fuel : ℕ) (st : LoopState P G F) (r : MinimizeResult) (aF : Assoc P),
      countInvariant st.a →
      minimizeLoop E k b fuel st = some (r, aF) → countInvariant aF := by
  intro fuel
  induction fuel with
  | zero =>
    intro st r aF _ h
    rw [minimizeLoop] at h
    exact Option.noConfusion h
  | succ fuel ih =>
    intro st r aF hinv h
    rw [minimizeLoop] at h
    rcases hstep : minimizeStep E k b st with ⟨r2, a2⟩ | st'
    · rw [hstep] at h
      dsimp only at h
      simp only [Option.some.injEq, Prod.mk.injEq] at h
      exact (minimizeStep_inv E k b Hacc Hnodup st hinv).1 r aF
        (by rw [hstep, h.1, h.2])
    · rw [hstep] at h
      dsimp only at h
      exact ih st' r aF ((minimizeStep_inv E k b Hacc Hnodup st hinv).2 st' hstep) h

/-- C5: a measured outlier is set invalid with its FittedStar's count
decremented by exactly one while everything else is untouched, a reference
outlier only has its reference link detached (measured stars and counts
unchanged), and under an engine whose assignIndices preserves the invariant
and whose measurement contributions name valid in-range measured stars
without repetition, minimize preserves the count == valid-children
invariant from entry to whatever state it returns. -/
theorem c5_measCount_invariant (E : Engine P G H F D) (k : ℚ) (b : Bool) (fuel : ℕ) :
    (∀ (a : Assoc P) (m : ℕ), m < a.meas.length →
        (a.meas.getD m default).valid = true → countInvariant a →
        ((removeOneMeas a m).meas.getD m default).valid = false ∧
        ((removeOneMeas a m).fitted.getD (a.meas.getD m default).fittedIndex default).count
          = (a.fitted.getD (a.meas.getD m default).fittedIndex default).count - 1 ∧
        (∀ n, n ≠ m → (removeOneMeas a m).meas.getD n default = a.meas.getD n default) ∧
        (∀ fi, fi ≠ (a.meas.getD m default).fittedIndex →
          (removeOneMeas a m).fitted.getD fi default = a.fitted.getD fi default) ∧
        countInvariant (removeOneMeas a m)) ∧
    (∀ (a : Assoc P) (fs : List ℕ),
        (removeRefOutliers a fs).meas = a.meas ∧
        (∀ fi, ((removeRefOutliers a fs).fitted.getD fi default).count
            = (a.fitted.getD fi default).count) ∧
        (removeRefOutliers a fs).params = a.params) ∧
    ((∀ a : Assoc P, countInvariant a → countInvariant (E.assignIndices a)) →
      (∀ (a : Assoc P), ∀ mi ∈ (chi2ListOf E a).filterMap measStarOf,
        mi < a.meas.length ∧ (a.meas.getD mi default).valid = true) →
      (∀ a : Assoc P, ((chi2ListOf E a).filterMap measStarOf).Nodup) →
      ∀ (a0 aF : Assoc P) (r : MinimizeResult), countInvariant a0 →
        minimize E k b fuel a0 = some (r, aF) → countInvariant aF) := by
  refine ⟨?_, ?_, ?_⟩
  · intro a m hm hv hinv
    obtain ⟨h1, _, h3, h4, h5, h6, _⟩ := removeOneMeas_spec a m hm hv hinv
    exact ⟨h3, h5, h4, h6, h1⟩
  · intro a fs
    exact removeRefOutliers_fields fs a
  · intro Hassign Hacc Hnodup a0 aF r hinv hm
    rcases hf : E.factorize (E.derivatives (E.assignIndices a0)).2 with _ | chol
    · rw [minimize, hf] at hm
      dsimp only at hm
      simp only [Option.some.injEq, Prod.mk.injEq] at hm
      rw [← hm.2]
      exact Hassign a0 hinv
    · rw [minimize, hf] at hm
      dsimp only at hm
      exact minimizeLoop_inv E k b Hacc Hnodup fuel (initLoopState E a0 chol) r aF
        (Hassign a0 hinv) hm

/-! ### saveChi2Contributions path cooking -/

/-- std::string::rfind of a single character: index of its last occurrence. -/
def rfindIdx (c : Char) : List Char → Option ℕ
  | [] => none
  | a :: t =>
    match rfindIdx c t with
    | some i => some (i + 1)
    | none => if a = c then some 0 else none

/-- std::string::insert(pos, str). -/
def insertAt (s : List Char) (i : ℕ) (t : List Char) : List Char :=
  s.take i ++ t ++ s.drop i

/-- The insertion position of saveChi2Contributions: the last dot, moved to
the end of the string when there is no dot, or when the last dot lies before
the last slash. -/
def chi2DotPos (s : List Char) : ℕ :=
  match rfindIdx '.' s, rfindIdx '/' s with
  | none, _ => s.length
  | some d, none => d
  | some d, some sl => if d < sl then s.length else d

/-- The -meas output path. -/
def measPath (s : List Char) : List Char :=
  insertAt s (chi2DotPos s) ['-', 'm', 'e', 'a', 's']

/-- The -ref output path. -/
def refPath (s : List Char) : List Char :=
  insertAt s (chi2DotPos s) ['-', 'r', 'e', 'f']

/-- The spec's words for the insertion position: immediately before the final
dot, or end-of-string when there is none. -/
def specDotPos (s : List Char) : ℕ :=
  match rfindIdx '.' s with
  | none => s.length
  | some d => d

theorem rfindIdx_none_spec (c : Char) : ∀ (s : List Char), rfindIdx c s = none →
    ∀ j, j < s.length → s.getD j c ≠ c := by
  intro s
  induction s with
  | nil => intro _ j hj; simp at hj
  | cons a t ih =>
    intro h j hj
    rw [rfindIdx] at h
    rcases ht : rfindIdx c t with _ | i
    · rw [ht] at h
      dsimp only at h
      by_cases hac : a = c
      · rw [if_pos hac] at h
        exact Option.noConfusion h
      · rw [if_neg hac] at h
        cases j with
        | zero => exact hac
        | succ j2 => exact ih ht j2 (by simpa using hj)
    · rw [ht] at h
      dsimp only at h
      exact Option.noConfusion h

theorem rfindIdx_some_spec (c : Char) : ∀ (s : List Char) (i : ℕ), rfindIdx c s = some i →
    i < s.length ∧ s.getD i c = c ∧ ∀ j, i < j → j < s.length → s.getD j c ≠ c := by
  intro s
  induction s with
  | nil => intro i h; exact Option.noConfusion ((rfl : rfindIdx c [] = none) ▸ h)
  | cons a t ih =>
    intro i h
    rw [rfindIdx] at h
    rcases ht : rfindIdx c t with _ | j
    · rw [ht] at h
      dsimp only at h
      by_cases hac : a = c
      · rw [if_pos hac] at h
        injection h with hi
        subst hi
        refine ⟨by simp, hac, ?_⟩
        intro j2 hj2 hlen
        cases j2 with
        | zero => omega
        | succ j3 => exact rfindIdx_none_spec c t ht j3 (by simpa using hlen)
      · rw [if_neg hac] at h
        exact Option.noConfusion h
    · rw [ht] at h
      dsimp only at h
      injection h with hi
      subst hi
      obtain ⟨h1, h2, h3⟩ := ih j ht
      refine ⟨by simpa using h1, h2, ?_⟩
      intro j2 hj2 hlen
      cases j2 with
      | zero => omega
      | succ j3 => exact h3 j3 (by omega) (by simpa using hlen)

theorem insertAt_length_eq (s t : List Char) : insertAt s s.length t = s ++ t := by
  rw [insertAt, List.take_length, List.drop_length, List.append_nil]

/-- C7 (amended): each output path inserts the suffix immediately before the
final dot only when the base name has a dot that is not followed by a slash
(no slash at all, or the last slash before the last dot); when there is no
dot, or when the last dot lies before the last slash, the suffix goes to the
end of the string. rfindIdx indeed names the final occurrence. -/
theorem c7_save_paths (s : List Char) :
    (∀ d, rfindIdx '.' s = some d →
      d < s.length ∧ s.getD d '.' = '.' ∧
        ∀ j, d < j → j < s.length → s.getD j '.' ≠ '.') ∧
    (rfindIdx '.' s = none →
      measPath s = s ++ ['-', 'm', 'e', 'a', 's'] ∧
      refPath s = s ++ ['-', 'r', 'e', 'f']) ∧
    (∀ d, rfindIdx '.' s = some d → rfindIdx '/' s = none →
      measPath s = insertAt s d ['-', 'm', 'e', 'a', 's'] ∧
      refPath s = insertAt s d ['-', 'r', 'e', 'f']) ∧
    (∀ d sl, rfindIdx '.' s = some d → rfindIdx '/' s = some sl → sl < d →
      measPath s = insertAt s d ['-', 'm', 'e', 'a', 's'] ∧
      refPath s = insertAt s d ['-', 'r', 'e', 'f']) ∧
    (∀ d sl, rfindIdx '.' s = some d → rfindIdx '/' s = some sl → d < sl →
      measPath s = s ++ ['-', 'm', 'e', 'a', 's'] ∧
      refPath s = s ++ ['-', 'r', 'e', 'f']) := by
  refine ⟨?_, ?_, ?_, ?_, ?_⟩
  · intro d hd
    exact rfindIdx_some_spec '.' s d hd
  · intro h
    have hp : chi2DotPos s = s.length := by
      rw [chi2DotPos, h]
    rw [measPath, refPath, hp, insertAt_length_eq, insertAt_length_eq]
    exact ⟨rfl, rfl⟩
  · intro d hd hsl
    have hp : chi2DotPos s = d := by
      rw [chi2DotPos, hd, hsl]
    rw [measPath, refPath, hp]
    exact ⟨rfl, rfl⟩
  · intro d sl hd hsl hlt
    have hp : chi2DotPos s = d := by
      rw [chi2DotPos, hd, hsl]
      dsimp only
      rw [if_neg (show ¬ (d < sl) by omega)]
    rw [measPath, refPath, hp]
    exact ⟨rfl, rfl⟩
  · intro d sl hd hsl hlt
    have hp : chi2DotPos s = s.length := by
      rw [chi2DotPos, hd, hsl]
      dsimp only
      rw [if_pos hlt]
    rw [measPath, refPath, hp, insertAt_length_eq, insertAt_length_eq]
    exact ⟨rfl, rfl⟩

/-- C7 counterexample: in "a.b/c" the last dot (index 1) precedes the last
slash, so the code appends at the end instead of inserting before the final
dot as the spec words say. -/
theorem c7_counterexample :
    rfindIdx '.' ['a', '.', 'b', '/', 'c'] = some 1 ∧
    specDotPos ['a', '.', 'b', '/', 'c'] = 1 ∧
    measPath ['a', '.', 'b', '/', 'c']
      ≠ insertAt ['a', '.', 'b', '/', 'c'] (specDotPos ['a', '.', 'b', '/', 'c'])
          ['-', 'm', 'e', 'a', 's'] ∧
    measPath ['a', '.', 'b', '/', 'c']
      = ['a', '.', 'b', '/', 'c', '-', 'm', 'e', 'a', 's'] := by
  refine ⟨by decide, by decide, by decide, by decide⟩

/-! ### MatchConditions defaults -/

/-- MatchConditions, with its default constructor values. -/
structure MatchConditions where
  nStarsList1 : ℤ
  nStarsList2 : ℤ
  maxTrialCount : ℤ
  nSigmas : ℚ
  maxShiftX : ℚ
  maxShiftY : ℚ
  sizeRatio : ℚ
  deltaSizeRatio : ℚ
  minMatchRatio : ℚ
  printLevel : ℤ
  algorithm : ℤ

/-- The default-constructed MatchConditions, field by field from the member
initializer list (deltaSizeRatio reads the already-initialized sizeRatio). -/
def defaultMatchConditions : MatchConditions :=
  let sizeRatio : ℚ := 1
  { nStarsList1 := 70
    nStarsList2 := 70
    maxTrialCount := 4
    nSigmas := 3
    maxShiftX := 50
    maxShiftY := 50
    sizeRatio := sizeRatio
    deltaSizeRatio := (1 / 10) * sizeRatio
    minMatchRatio := 1 / 3
    printLevel := 0
    algorithm := 2 }

/-- C9: the default MatchConditions values are exactly the documented ones. -/
theorem c9_matchConditions_defaults :
    defaultMatchConditions.nStarsList1 = 70 ∧
    defaultMatchConditions.nStarsList2 = 70 ∧
    defaultMatchConditions.maxTrialCount = 4 ∧
    defaultMatchConditions.nSigmas = 3 ∧
    defaultMatchConditions.maxShiftX = 50 ∧
    defaultMatchConditions.maxShiftY = 50 ∧
    defaultMatchConditions.sizeRatio = 1 ∧
    defaultMatchConditions.deltaSizeRatio = 1 / 10 ∧
    defaultMatchConditions.minMatchRatio = 1 / 3 ∧
    defaultMatchConditions.algorithm = 2 := by
  refine ⟨rfl, rfl, rfl, rfl, rfl, rfl, rfl, ?_, rfl, rfl⟩
  show ((1 : ℚ) / 10) * 1 = 1 / 10
  norm_num
